import Mathlib

/-!
Verification development for the duckbake vectorization pipeline
(src-tauri: services/document_parser.rs, services/duckdb_service.rs,
services/ollama_service.rs, commands/vectorization.rs, commands/documents.rs).

Modelling conventions:
* Rust strings are modelled as lists of characters (`Text := List Char`);
  `str::len` becomes list length (byte length and character length coincide on
  the single-byte contents the claims evaluate, and all offset arithmetic in
  the source is uniform in the unit).
* Rust `i32`/`i64` counters are modelled as `Nat`/`Int`; the offsets in
  `chunk_by_paragraphs` only ever grow by small positive amounts, and no claim
  concerns wrap-around, so overflow is not modelled.
* `uuid::Uuid::new_v4()` (a fresh identifier per created chunk) is modelled by
  an arbitrary generator `idGen : Nat → String` applied to the number of chunks
  created so far.
* Database statements are given their standard relational semantics over an
  explicit list of rows; external-service calls (Ollama HTTP) are modelled by
  an environment recording the outcome of each call.
-/

/-- Rust strings, modelled as lists of characters. -/
abbrev Text := List Char

/-- The ASCII part of `char::is_whitespace`, which is what `str::trim` strips.
The documents the claims evaluate contain only ASCII whitespace. -/
def isRustWhitespace (c : Char) : Bool :=
  c = ' ' || c = '\t' || c = '\n' || c = '\r'

/-- Model of Rust `str::trim`: strip whitespace from both ends. -/
def trim (s : Text) : Text :=
  ((s.dropWhile isRustWhitespace).reverse.dropWhile isRustWhitespace).reverse

/-- Model of Rust `content.split("\n\n")`: greedy leftmost split on the
two-character separator, keeping empty parts (as `str::split` does). -/
def splitBlank : Text → List Text
  | [] => [[]]
  | [c] => [[c]]
  | c :: d :: rest =>
    if c = '\n' ∧ d = '\n' then
      [] :: splitBlank rest
    else
      match splitBlank (d :: rest) with
      | [] => [[c]]
      | p :: ps => (c :: p) :: ps

/-- Re-joining the parts with the removed "\n\n" separators. -/
def joinBlank : List Text → Text
  | [] => []
  | [p] => p
  | p :: ps => p ++ '\n' :: '\n' :: joinBlank ps

theorem splitBlank_ne_nil (l : Text) : splitBlank l ≠ [] := by
  induction l using splitBlank.induct with
  | case1 => simp [splitBlank]
  | case2 c => simp [splitBlank]
  | case3 c d rest hsep ih =>
    rw [splitBlank, if_pos hsep]
    simp
  | case4 c d rest hsep hnil ih => exact absurd hnil ih
  | case5 c d rest hsep p ps hcons ih =>
    rw [splitBlank, if_neg hsep, hcons]
    simp

theorem joinBlank_cons_of_ne_nil (p : Text) (ps : List Text) (h : ps ≠ []) :
    joinBlank (p :: ps) = p ++ '\n' :: '\n' :: joinBlank ps := by
  cases ps with
  | nil => exact absurd rfl h
  | cons q qs => rfl

theorem joinBlank_splitBlank (l : Text) : joinBlank (splitBlank l) = l := by
  induction l using splitBlank.induct with
  | case1 => rfl
  | case2 c => rfl
  | case3 c d rest hsep ih =>
    rw [splitBlank, if_pos hsep,
      joinBlank_cons_of_ne_nil _ _ (splitBlank_ne_nil rest), ih]
    obtain ⟨h1, h2⟩ := hsep
    rw [h1, h2]
    rfl
  | case4 c d rest hsep hnil ih => exact absurd hnil (splitBlank_ne_nil _)
  | case5 c d rest hsep p ps hcons ih =>
    rw [splitBlank, if_neg hsep, hcons]
    rw [hcons] at ih
    cases ps with
    | nil =>
      show c :: p = c :: d :: rest
      rw [show joinBlank [p] = p from rfl] at ih
      rw [ih]
    | cons q qs =>
      rw [joinBlank_cons_of_ne_nil _ _ (by simp)]
      rw [joinBlank_cons_of_ne_nil _ _ (by simp)] at ih
      simp [← ih]

/-- The parts of `splitBlank` account for the whole length: each of the
`n - 1` removed separators contributed two characters. -/
theorem splitBlank_length_sum (l : Text) :
    ((splitBlank l).map List.length).sum + 2 * ((splitBlank l).length - 1) =
      l.length := by
  conv_rhs => rw [← joinBlank_splitBlank l]
  generalize splitBlank l = ps
  induction ps with
  | nil => simp [joinBlank]
  | cons p ps ih =>
    cases ps with
    | nil => simp [joinBlank]
    | cons q qs =>
      rw [joinBlank_cons_of_ne_nil _ _ (by simp)]
      simp only [List.map_cons, List.sum_cons, List.length_cons,
        List.length_append] at *
      omega

/-! ## Chunker (`services/document_parser.rs`) -/

/-- One row of the chunking output, mirroring `models::DocumentChunk`
(`id`, `document_id`, `chunk_index`, `chunk_type`, `content`,
`start_offset`, `end_offset`).  Rust stores offsets as `i32`; they are
non-negative cumulative counts, modelled as `Nat`. -/
structure DocumentChunk where
  id : String
  document_id : String
  chunk_index : Nat
  chunk_type : String
  content : Text
  start_offset : Nat
  end_offset : Nat
deriving DecidableEq

/-- `MAX_CHUNK_SIZE` from `chunk_by_paragraphs`. -/
def MAX_CHUNK_SIZE : Nat := 1000

/-- `MIN_CHUNK_SIZE` from `chunk_by_paragraphs`. -/
def MIN_CHUNK_SIZE : Nat := 100

/-- The mutable locals of the `chunk_by_paragraphs` loop. -/
structure ParaChunkState where
  chunks : List DocumentChunk
  current_chunk : Text
  chunk_index : Nat
  char_offset : Nat
  chunk_start : Nat

/-- The chunk pushed by `chunks.push(DocumentChunk { .. })` in
`chunk_by_paragraphs`: content is the accumulated buffer, offsets are the
recorded start and the running cumulative offset.  The fresh uuid is drawn
from `idGen` at the number of chunks created so far. -/
def mkParaChunk (idGen : Nat → String) (docId : String) (st : ParaChunkState) :
    DocumentChunk :=
  { id := idGen st.chunks.length
    document_id := docId
    chunk_index := st.chunk_index
    chunk_type := "paragraph"
    content := st.current_chunk
    start_offset := st.chunk_start
    end_offset := st.char_offset }

/-- One iteration of `for para in paragraphs` in `chunk_by_paragraphs`:
trim the paragraph; an empty paragraph only advances the offset past its
separator; otherwise flush the buffer when appending would exceed
`MAX_CHUNK_SIZE`, then append (with a blank line when the buffer is
non-empty) and advance the offset by the paragraph length plus two. -/
def paraStep (idGen : Nat → String) (docId : String)
    (st : ParaChunkState) (para0 : Text) : ParaChunkState :=
  let para := trim para0
  if para.isEmpty then
    { st with char_offset := st.char_offset + 2 }
  else
    let st1 :=
      if ¬st.current_chunk.isEmpty ∧
          st.current_chunk.length + para.length + 2 > MAX_CHUNK_SIZE then
        { chunks := st.chunks ++ [mkParaChunk idGen docId st]
          current_chunk := []
          chunk_index := st.chunk_index + 1
          char_offset := st.char_offset
          chunk_start := st.char_offset }
      else st
    let cur :=
      if st1.current_chunk.isEmpty then para
      else st1.current_chunk ++ '\n' :: '\n' :: para
    { st1 with
      current_chunk := cur
      char_offset := st1.char_offset + para.length + 2 }

/-- The code after the loop in `chunk_by_paragraphs`: push the trailing
buffer when it reaches `MIN_CHUNK_SIZE`; otherwise merge it into the
previous chunk when one exists; otherwise (first and only chunk) push it
regardless of size. -/
def paraFinalize (idGen : Nat → String) (docId : String)
    (st : ParaChunkState) : List DocumentChunk :=
  if ¬st.current_chunk.isEmpty ∧ st.current_chunk.length ≥ MIN_CHUNK_SIZE then
    st.chunks ++ [mkParaChunk idGen docId st]
  else if ¬st.current_chunk.isEmpty ∧ ¬st.chunks.isEmpty then
    match st.chunks.getLast? with
    | some last =>
        st.chunks.dropLast ++
          [{ last with
              content := last.content ++ '\n' :: '\n' :: st.current_chunk
              end_offset := st.char_offset }]
    | none => st.chunks
  else if ¬st.current_chunk.isEmpty then
    st.chunks ++ [mkParaChunk idGen docId st]
  else
    st.chunks

/-- `DocumentParser::chunk_by_paragraphs`. -/
def chunk_by_paragraphs (idGen : Nat → String) (docId : String)
    (content : Text) : List DocumentChunk :=
  paraFinalize idGen docId
    ((splitBlank content).foldl (paraStep idGen docId)
      ⟨[], [], 0, 0, 0⟩)

/-! ## Offset tiling of the paragraph chunker output -/

/-- `TiledFrom i pos cs stop`: the chunks `cs` carry consecutive indices
starting at `i` and partition the offset range from `pos` to `stop`
contiguously (each chunk starts where the previous one ended). -/
def TiledFrom : Nat → Nat → List DocumentChunk → Nat → Prop
  | _, pos, [], stop => pos = stop
  | i, pos, c :: cs, stop =>
    c.chunk_index = i ∧ c.start_offset = pos ∧ pos ≤ c.end_offset ∧
      TiledFrom (i + 1) c.end_offset cs stop

/-- Executable check that a chunk list is contiguously tiled: indices count
up from `i`, the first chunk starts at `pos`, every chunk's start equals the
previous chunk's end, and starts do not exceed ends. -/
def chainFrom : Nat → Nat → List DocumentChunk → Bool
  | _, _, [] => true
  | i, pos, c :: cs =>
    decide (c.chunk_index = i) && decide (c.start_offset = pos) &&
      decide (pos ≤ c.end_offset) && chainFrom (i + 1) c.end_offset cs

/-- Executable check that a list of naturals is non-decreasing. -/
def nondecr : List Nat → Bool
  | [] => true
  | [_] => true
  | a :: b :: t => decide (a ≤ b) && nondecr (b :: t)

theorem chainFrom_of_tiledFrom {i pos stop : Nat} {cs : List DocumentChunk}
    (h : TiledFrom i pos cs stop) : chainFrom i pos cs = true := by
  induction cs generalizing i pos with
  | nil => rfl
  | cons c cs ih =>
    obtain ⟨h1, h2, h3, h4⟩ := h
    simp [chainFrom, h1, h2, h3, ih h4]

theorem tiledFrom_concat_iff (i pos stop : Nat) (cs : List DocumentChunk)
    (c : DocumentChunk) :
    TiledFrom i pos (cs ++ [c]) stop ↔
      TiledFrom i pos cs c.start_offset ∧ c.chunk_index = i + cs.length ∧
        c.start_offset ≤ c.end_offset ∧ c.end_offset = stop := by
  induction cs generalizing i pos with
  | nil =>
    simp only [List.nil_append, TiledFrom, List.length_nil, Nat.add_zero]
    constructor
    · rintro ⟨h1, h2, h3, h4⟩
      exact ⟨h2.symm, h1, h2 ▸ h3, h4⟩
    · rintro ⟨h1, h2, h3, h4⟩
      exact ⟨h2, h1.symm, h1 ▸ h3, h4⟩
  | cons b bs ih =>
    simp only [List.cons_append, TiledFrom, List.length_cons, List.append_eq]
    rw [ih]
    constructor
    · rintro ⟨h1, h2, h3, h4, h5, h6, h7⟩
      exact ⟨⟨h1, h2, h3, h4⟩, by omega, h6, h7⟩
    · rintro ⟨⟨h1, h2, h3, h4⟩, h5, h6, h7⟩
      exact ⟨h1, h2, h3, h4, by omega, h6, h7⟩

theorem tiledFrom_getLast {i pos stop : Nat} {cs : List DocumentChunk}
    (h : TiledFrom i pos cs stop) (hne : cs ≠ []) :
    (cs.getLast hne).end_offset = stop := by
  induction cs generalizing i pos with
  | nil => exact absurd rfl hne
  | cons c cs ih =>
    obtain ⟨-, -, -, h4⟩ := h
    cases cs with
    | nil => simpa using h4
    | cons b bs => exact ih h4 (by simp)

theorem nondecr_starts_of_tiledFrom {i pos stop : Nat}
    {cs : List DocumentChunk} (h : TiledFrom i pos cs stop) :
    nondecr (cs.map DocumentChunk.start_offset) = true := by
  induction cs generalizing i pos with
  | nil => rfl
  | cons c cs ih =>
    obtain ⟨-, h2, h3, h4⟩ := h
    cases cs with
    | nil => rfl
    | cons b bs =>
      have h4c := h4
      obtain ⟨-, hb2, hb3, -⟩ := h4c
      simp only [List.map_cons, nondecr, Bool.and_eq_true, decide_eq_true_eq]
      exact ⟨by omega, ih h4⟩

theorem nondecr_ends_of_tiledFrom {i pos stop : Nat}
    {cs : List DocumentChunk} (h : TiledFrom i pos cs stop) :
    nondecr (cs.map DocumentChunk.end_offset) = true := by
  induction cs generalizing i pos with
  | nil => rfl
  | cons c cs ih =>
    obtain ⟨-, h2, h3, h4⟩ := h
    cases cs with
    | nil => rfl
    | cons b bs =>
      have h4c := h4
      obtain ⟨-, hb2, hb3, hb4⟩ := h4c
      simp only [List.map_cons, nondecr, Bool.and_eq_true, decide_eq_true_eq]
      refine ⟨by omega, ?_⟩
      have hrec := ih h4
      simp only [List.map_cons] at hrec
      exact hrec

/-- The loop invariant of `chunk_by_paragraphs`: the emitted chunks tile
`[0, chunk_start)` with consecutive indices from `0`, the next index equals
the number of emitted chunks, the recorded start never exceeds the running
offset, and no chunk is ever emitted while the buffer has never been
filled. -/
def ParaInv (st : ParaChunkState) : Prop :=
  TiledFrom 0 0 st.chunks st.chunk_start ∧
    st.chunk_index = st.chunks.length ∧
    st.chunk_start ≤ st.char_offset ∧
    (st.current_chunk = [] → st.chunks = [])

theorem paraInv_init : ParaInv ⟨[], [], 0, 0, 0⟩ := by
  refine ⟨rfl, rfl, Nat.le_refl 0, fun _ => rfl⟩

theorem paraStep_inv (idGen : Nat → String) (docId : String)
    (st : ParaChunkState) (para0 : Text) (h : ParaInv st) :
    ParaInv (paraStep idGen docId st para0) := by
  obtain ⟨h1, h2, h3, h4⟩ := h
  rw [paraStep]
  by_cases he : (trim para0).isEmpty
  · rw [if_pos he]
    exact ⟨h1, h2, by dsimp only; omega, h4⟩
  · rw [if_neg he]
    simp only []
    by_cases hf : ¬st.current_chunk.isEmpty ∧
        st.current_chunk.length + (trim para0).length + 2 > MAX_CHUNK_SIZE
    · rw [if_pos hf]
      simp only [List.isEmpty_nil, if_pos rfl]
      unfold ParaInv
      dsimp only
      refine ⟨?_, by simp [h2], by omega, ?_⟩
      · rw [tiledFrom_concat_iff]
        exact ⟨h1, by simp [mkParaChunk, h2], by simp [mkParaChunk, h3],
          by simp [mkParaChunk]⟩
      · intro hc
        exact absurd hc (by simpa using he)
    · rw [if_neg hf]
      by_cases hcur : st.current_chunk.isEmpty
      · rw [if_pos hcur]
        unfold ParaInv
        dsimp only
        refine ⟨h1, h2, by omega, ?_⟩
        intro hc
        exact absurd hc (by simpa using he)
      · rw [if_neg hcur]
        unfold ParaInv
        dsimp only
        refine ⟨h1, h2, by omega, ?_⟩
        intro hc
        simp at hc

theorem paraFold_inv (idGen : Nat → String) (docId : String)
    (ps : List Text) (st : ParaChunkState) (h : ParaInv st) :
    ParaInv (ps.foldl (paraStep idGen docId) st) := by
  induction ps generalizing st with
  | nil => exact h
  | cons p ps ih => exact ih _ (paraStep_inv idGen docId st p h)

/-- The offset contribution of one paragraph in `chunk_by_paragraphs`:
two characters for an (after trimming) empty paragraph, trimmed length plus
two otherwise. -/
def paraCost (p : Text) : Nat :=
  if (trim p).isEmpty then 2 else (trim p).length + 2

theorem paraStep_char_offset (idGen : Nat → String) (docId : String)
    (st : ParaChunkState) (para0 : Text) :
    (paraStep idGen docId st para0).char_offset =
      st.char_offset + paraCost para0 := by
  rw [paraStep, paraCost]
  by_cases he : (trim para0).isEmpty
  · rw [if_pos he, if_pos he]
  · rw [if_neg he, if_neg he]
    simp only []
    by_cases hf : ¬st.current_chunk.isEmpty ∧
        st.current_chunk.length + (trim para0).length + 2 > MAX_CHUNK_SIZE
    · rw [if_pos hf]
      dsimp only
      omega
    · rw [if_neg hf]
      omega

theorem paraFold_char_offset (idGen : Nat → String) (docId : String)
    (ps : List Text) (st : ParaChunkState) :
    (ps.foldl (paraStep idGen docId) st).char_offset =
      st.char_offset + (ps.map paraCost).sum := by
  induction ps generalizing st with
  | nil => simp
  | cons p ps ih =>
    simp only [List.foldl_cons, List.map_cons, List.sum_cons]
    rw [ih, paraStep_char_offset]
    omega

theorem paraFinalize_tiled_of_ne (idGen : Nat → String) (docId : String)
    (st : ParaChunkState) (h : ParaInv st) (hcur : ¬st.current_chunk.isEmpty) :
    TiledFrom 0 0 (paraFinalize idGen docId st) st.char_offset ∧
      paraFinalize idGen docId st ≠ [] := by
  obtain ⟨h1, h2, h3, h4⟩ := h
  rw [paraFinalize]
  by_cases hb1 : ¬st.current_chunk.isEmpty ∧
      st.current_chunk.length ≥ MIN_CHUNK_SIZE
  · rw [if_pos hb1]
    refine ⟨?_, by simp⟩
    rw [tiledFrom_concat_iff]
    exact ⟨h1, by simp [mkParaChunk, h2], by simp [mkParaChunk, h3],
      by simp [mkParaChunk]⟩
  · rw [if_neg hb1]
    by_cases hb2 : ¬st.current_chunk.isEmpty ∧ ¬st.chunks.isEmpty
    · rw [if_pos hb2]
      obtain ⟨-, hchunks⟩ := hb2
      rcases List.eq_nil_or_concat st.chunks with hnil | ⟨L, b, hLb⟩
      · rw [hnil] at hchunks
        simp at hchunks
      · rw [List.concat_eq_append] at hLb
        rw [hLb, List.getLast?_concat, List.dropLast_concat]
        rw [hLb] at h1
        rw [tiledFrom_concat_iff] at h1
        obtain ⟨t1, t2, t3, t4⟩ := h1
        refine ⟨?_, by simp⟩
        rw [tiledFrom_concat_iff]
        refine ⟨t1, ?_, ?_, rfl⟩
        · rw [hLb] at h2
          simpa using t2
        · dsimp only
          omega
    · rw [if_neg hb2]
      rw [if_pos hcur]
      have hchunks : st.chunks = [] := by
        by_cases hc : st.chunks.isEmpty
        · simpa using hc
        · exact absurd ⟨hcur, hc⟩ hb2
      rw [hchunks] at h1
      have hstart : st.chunk_start = 0 := h1.symm
      rw [hchunks]
      refine ⟨?_, by simp⟩
      simp only [List.nil_append]
      exact ⟨by simp [mkParaChunk, hchunks, h2], by simp [mkParaChunk, hstart],
        by simp [mkParaChunk], rfl⟩

theorem paraFinalize_of_empty (idGen : Nat → String) (docId : String)
    (st : ParaChunkState) (hcur : st.current_chunk.isEmpty) :
    paraFinalize idGen docId st = st.chunks := by
  rw [paraFinalize]
  rw [if_neg (by simp_all), if_neg (by simp_all), if_neg (by simp_all)]

theorem chunk_by_paragraphs_tiled (idGen : Nat → String) (docId : String)
    (content : Text) :
    ∃ stop, TiledFrom 0 0 (chunk_by_paragraphs idGen docId content) stop := by
  have hinv := paraFold_inv idGen docId (splitBlank content) _ paraInv_init
  rw [chunk_by_paragraphs]
  set st := (splitBlank content).foldl (paraStep idGen docId) ⟨[], [], 0, 0, 0⟩
  by_cases hcur : st.current_chunk.isEmpty
  · rw [paraFinalize_of_empty idGen docId st hcur]
    exact ⟨st.chunk_start, hinv.1⟩
  · exact ⟨st.char_offset, (paraFinalize_tiled_of_ne idGen docId st hinv hcur).1⟩

theorem map_length_add_two_sum (ps : List Text) :
    (ps.map (fun p => p.length + 2)).sum =
      (ps.map List.length).sum + 2 * ps.length := by
  induction ps with
  | nil => rfl
  | cons p ps ih =>
    simp only [List.map_cons, List.sum_cons, List.length_cons, ih]
    omega

/-- C10: the paragraph strategy tiles offsets contiguously — consecutive
indices from 0, first start offset 0, each start equal to the previous end
(and no start exceeding its end). -/
theorem c10_paragraph_chunks_tile (idGen : Nat → String) (docId : String)
    (content : Text) :
    chainFrom 0 0 (chunk_by_paragraphs idGen docId content) = true := by
  obtain ⟨stop, h⟩ := chunk_by_paragraphs_tiled idGen docId content
  exact chainFrom_of_tiledFrom h

/-- C4 (amended): start and end offsets are non-decreasing in chunk order;
for content whose blank-line paragraphs carry no surrounding whitespace the
final chunk's end offset equals the content length PLUS TWO (the loop
charges a two-character separator to every paragraph, including the last,
which has none). -/
theorem c4_offsets_monotone_last_end (idGen : Nat → String) (docId : String)
    (content : Text) :
    nondecr ((chunk_by_paragraphs idGen docId content).map
        DocumentChunk.start_offset) = true ∧
    nondecr ((chunk_by_paragraphs idGen docId content).map
        DocumentChunk.end_offset) = true ∧
    ∀ (htrim : ∀ p ∈ splitBlank content, trim p = p)
      (hne : chunk_by_paragraphs idGen docId content ≠ []),
      ((chunk_by_paragraphs idGen docId content).getLast hne).end_offset =
        content.length + 2 := by
  obtain ⟨stop, htiled⟩ := chunk_by_paragraphs_tiled idGen docId content
  refine ⟨nondecr_starts_of_tiledFrom htiled, nondecr_ends_of_tiledFrom htiled,
    ?_⟩
  intro htrim hne
  have hinv := paraFold_inv idGen docId (splitBlank content) _ paraInv_init
  by_cases hcur :
      ((splitBlank content).foldl (paraStep idGen docId)
        ⟨[], [], 0, 0, 0⟩).current_chunk.isEmpty
  · exfalso
    apply hne
    rw [chunk_by_paragraphs,
      paraFinalize_of_empty idGen docId _ hcur]
    exact hinv.2.2.2 (by simpa using hcur)
  · have hfin := paraFinalize_tiled_of_ne idGen docId _ hinv hcur
    have hlast := tiledFrom_getLast hfin.1 hne
    show ((paraFinalize idGen docId
        ((splitBlank content).foldl (paraStep idGen docId)
          ⟨[], [], 0, 0, 0⟩)).getLast hne).end_offset = content.length + 2
    rw [hlast, paraFold_char_offset]
    have hmap : (splitBlank content).map paraCost =
        (splitBlank content).map (fun p => p.length + 2) := by
      refine List.map_congr_left ?_
      intro p hp
      rw [paraCost, htrim p hp]
      by_cases hpe : p.isEmpty
      · rw [if_pos hpe]
        have : p = [] := by simpa using hpe
        simp [this]
      · rw [if_neg hpe]
    rw [hmap, map_length_add_two_sum]
    have hsum := splitBlank_length_sum content
    have hlen : 1 ≤ (splitBlank content).length :=
      List.length_pos.mpr (splitBlank_ne_nil content)
    dsimp only
    omega

/-- C4 counterexample: for the two-character document "ab" the single
produced chunk has end offset 4, not the content length 2. -/
theorem c4_last_end_ne_content_length :
    ((chunk_by_paragraphs (fun _ => "") "doc" ['a', 'b']).getLast
        (by decide)).end_offset = 4 ∧
      (['a', 'b'] : Text).length = 2 := by decide

/-- C4 witness: instantiating the amended theorem at the document "ab". -/
theorem c4_offsets_monotone_last_end_witness :
    ((chunk_by_paragraphs (fun _ => "") "doc" ['a', 'b']).getLast
        (by decide)).end_offset = (['a', 'b'] : Text).length + 2 :=
  (c4_offsets_monotone_last_end (fun _ => "") "doc" ['a', 'b']).2.2
    (by decide) (by decide)

theorem splitBlank_no_newline (q : Text) (h : '\n' ∉ q) :
    splitBlank q = [q] := by
  induction q using splitBlank.induct with
  | case1 => rfl
  | case2 c => rfl
  | case3 c d rest hsep ih =>
    exact absurd (by simp [hsep.1]) h
  | case4 c d rest hsep hnil ih => exact absurd hnil (splitBlank_ne_nil _)
  | case5 c d rest hsep p ps hcons ih =>
    rw [splitBlank, if_neg hsep, hcons]
    have hdr := ih (fun hm => h (by simp [hm]))
    rw [hcons] at hdr
    injection hdr with hp hps
    rw [hp, hps]

theorem splitBlank_append_sep (p q : Text) (h : '\n' ∉ p) :
    splitBlank (p ++ '\n' :: '\n' :: q) = p :: splitBlank q := by
  induction p with
  | nil =>
    show splitBlank ('\n' :: '\n' :: q) = [] :: splitBlank q
    rw [splitBlank, if_pos ⟨rfl, rfl⟩]
  | cons a p ih =>
    have ha : ¬a = '\n' := fun hc => h (by simp [hc])
    have hp : '\n' ∉ p := fun hm => h (by simp [hm])
    cases hpq : p ++ '\n' :: '\n' :: q with
    | nil => exact absurd hpq (by simp)
    | cons d rest =>
      have hgoal : splitBlank (a :: d :: rest) = (a :: p) :: splitBlank q := by
        rw [splitBlank, if_neg (fun hc => ha hc.1), ← hpq, ih hp]
      rw [List.cons_append, hpq, hgoal]

theorem dropWhile_eq_self_of_all (f : Char → Bool) (l : Text)
    (h : ∀ c ∈ l, f c = false) : l.dropWhile f = l := by
  cases l with
  | nil => rfl
  | cons a l => rw [List.dropWhile_cons, h a (by simp), if_neg (by simp)]

theorem trim_eq_self_of_all (l : Text)
    (h : ∀ c ∈ l, isRustWhitespace c = false) : trim l = l := by
  rw [trim, dropWhile_eq_self_of_all _ _ h,
    dropWhile_eq_self_of_all _ _ (fun c hc => h c (by simpa using hc)),
    List.reverse_reverse]

/-- The first paragraph of the worked spec scenario: sixteen characters. -/
def introPara : Text := "Intro text here.".toList

/-- The second paragraph of the worked spec scenario: 950 characters. -/
def bigPara : Text := List.replicate 950 'a'

/-- The document of the worked spec scenario: the two paragraphs separated
by one blank line; 16 + 2 + 950 = 968 characters. -/
def demoContent : Text := introPara ++ '\n' :: '\n' :: bigPara

theorem bigPara_no_ws : ∀ c ∈ bigPara, isRustWhitespace c = false := by
  intro c hc
  rw [List.eq_of_mem_replicate hc]
  decide

theorem newline_not_mem_bigPara : '\n' ∉ bigPara := by
  intro hm
  have hws := bigPara_no_ws '\n' hm
  simp [isRustWhitespace] at hws

theorem splitBlank_demoContent :
    splitBlank demoContent = [introPara, bigPara] := by
  rw [demoContent, splitBlank_append_sep _ _ (by decide),
    splitBlank_no_newline bigPara newline_not_mem_bigPara]

/-- Evaluating `chunk_by_paragraphs` on the worked spec scenario: both
paragraphs fit in one chunk, since 16 + 950 + 2 = 968 does not exceed
`MAX_CHUNK_SIZE`; the end offset is 970 = content length + 2. -/
theorem chunk_by_paragraphs_demo (idGen : Nat → String) (docId : String) :
    chunk_by_paragraphs idGen docId demoContent =
      [{ id := idGen 0
         document_id := docId
         chunk_index := 0
         chunk_type := "paragraph"
         content := introPara ++ '\n' :: '\n' :: bigPara
         start_offset := 0
         end_offset := 970 }] := by
  have htrim_intro : trim introPara = introPara := by decide
  have htrim_big : trim bigPara = bigPara := trim_eq_self_of_all _ bigPara_no_ws
  have hlen_big : bigPara.length = 950 := by
    rw [bigPara, List.length_replicate]
  have hlen_intro : introPara.length = 16 := by decide
  have hne_big : bigPara.isEmpty = false := by
    rw [bigPara]
    simp
  have h1 : paraStep idGen docId ⟨[], [], 0, 0, 0⟩ introPara =
      ⟨[], introPara, 0, 18, 0⟩ := by
    rw [paraStep, htrim_intro, if_neg (by decide)]
    dsimp only
    rw [if_neg (by decide), if_pos (by decide)]
    simp [hlen_intro]
  have h2 : paraStep idGen docId ⟨[], introPara, 0, 18, 0⟩ bigPara =
      ⟨[], introPara ++ '\n' :: '\n' :: bigPara, 0, 970, 0⟩ := by
    rw [paraStep, htrim_big, if_neg (by simp [hne_big])]
    dsimp only
    rw [if_neg ?flush, if_neg (by decide)]
    case flush =>
      rintro ⟨-, hgt⟩
      rw [hlen_intro, hlen_big] at hgt
      rw [MAX_CHUNK_SIZE] at hgt
      omega
    simp [hlen_big]
  have h3 : paraFinalize idGen docId
      ⟨[], introPara ++ '\n' :: '\n' :: bigPara, 0, 970, 0⟩ =
      [{ id := idGen 0
         document_id := docId
         chunk_index := 0
         chunk_type := "paragraph"
         content := introPara ++ '\n' :: '\n' :: bigPara
         start_offset := 0
         end_offset := 970 }] := by
    rw [paraFinalize]
    rw [if_pos ⟨by simp, by
      show (introPara ++ '\n' :: '\n' :: bigPara).length ≥ MIN_CHUNK_SIZE
      rw [List.length_append, hlen_intro]
      simp only [List.length_cons]
      rw [hlen_big, MIN_CHUNK_SIZE]
      omega⟩]
    rw [mkParaChunk]
    rfl
  rw [chunk_by_paragraphs, splitBlank_demoContent, List.foldl_cons, h1,
    List.foldl_cons, h2, List.foldl_nil, h3]

/-- C8 counterexample: the worked spec scenario (16-character first
paragraph, blank line, 950-character second paragraph, maximum chunk size
1000) produces ONE chunk, not two: appending the second paragraph needs
16 + 950 + 2 = 968 characters, which does not exceed 1000, so the first
paragraph is never flushed on its own. -/
theorem c8_scenario_not_two_chunks :
    (chunk_by_paragraphs (fun _ => "") "doc" demoContent).length = 1 ∧
      (chunk_by_paragraphs (fun _ => "") "doc" demoContent).length ≠ 2 := by
  rw [chunk_by_paragraphs_demo (fun _ => "") "doc"]
  exact ⟨rfl, by decide⟩

/-- C8 (amended): the scenario produces exactly one chunk, with index 0,
containing both paragraphs joined by the blank line, and its end offset is
970, the full content length (968) plus two. -/
theorem c8_scenario_single_chunk (idGen : Nat → String) (docId : String) :
    chunk_by_paragraphs idGen docId demoContent =
      [{ id := idGen 0
         document_id := docId
         chunk_index := 0
         chunk_type := "paragraph"
         content := introPara ++ '\n' :: '\n' :: bigPara
         start_offset := 0
         end_offset := 970 }] ∧
      demoContent.length = 968 ∧ (970 : Nat) = demoContent.length + 2 := by
  have hlen : demoContent.length = 968 := by
    rw [demoContent, List.length_append]
    simp only [List.length_cons]
    rw [show introPara.length = 16 by decide, bigPara, List.length_replicate]
  exact ⟨chunk_by_paragraphs_demo idGen docId, hlen, by omega⟩

/-- Model of Rust `str::split('\n')` (all parts kept). -/
def splitNL : Text → List Text
  | [] => [[]]
  | c :: rest =>
    if c = '\n' then [] :: splitNL rest
    else
      match splitNL rest with
      | [] => [[c]]
      | p :: ps => (c :: p) :: ps

/-- Model of Rust `str::lines()`: split on newlines, drop one final empty
part (a trailing line ending is optional), strip one trailing carriage
return from each line. -/
def rustLines (l : Text) : List Text :=
  if l.isEmpty then []
  else
    let ps := splitNL l
    let ps1 := if ps.getLast? = some [] then ps.dropLast else ps
    ps1.map (fun p => if p.getLast? = some '\r' then p.dropLast else p)

/-- The chunk pushed by `chunk_markdown` (category tag "section", content
trimmed before emission). -/
def mkMdChunk (idGen : Nat → String) (docId : String) (st : ParaChunkState)
    (content : Text) : DocumentChunk :=
  { id := idGen st.chunks.length
    document_id := docId
    chunk_index := st.chunk_index
    chunk_type := "section"
    content := content
    start_offset := st.chunk_start
    end_offset := st.char_offset }

/-- One iteration of `for line in lines` in `chunk_markdown`: a heading
line flushes a non-blank buffer; a non-heading line that would push the
buffer past `MAX_CHUNK_SIZE` also flushes; then the line is appended (with
a newline when the buffer is non-empty) and the offset advances by the
line length plus one. -/
def mdStep (idGen : Nat → String) (docId : String)
    (st : ParaChunkState) (line : Text) : ParaChunkState :=
  let is_heading := line.head? = some '#'
  let st1 :=
    if is_heading ∧ ¬(trim st.current_chunk).isEmpty then
      { chunks := st.chunks ++ [mkMdChunk idGen docId st (trim st.current_chunk)]
        current_chunk := []
        chunk_index := st.chunk_index + 1
        char_offset := st.char_offset
        chunk_start := st.char_offset }
    else st
  let st2 :=
    if ¬st1.current_chunk.isEmpty ∧
        st1.current_chunk.length + line.length + 1 > MAX_CHUNK_SIZE ∧
        ¬is_heading then
      { chunks := st1.chunks ++
          [mkMdChunk idGen docId st1 (trim st1.current_chunk)]
        current_chunk := []
        chunk_index := st1.chunk_index + 1
        char_offset := st1.char_offset
        chunk_start := st1.char_offset }
    else st1
  let cur :=
    if st2.current_chunk.isEmpty then line
    else st2.current_chunk ++ '\n' :: line
  { st2 with
    current_chunk := cur
    char_offset := st2.char_offset + line.length + 1 }

/-- The code after the loop in `chunk_markdown`: flush a non-blank trailing
buffer; if no chunk was produced at all and the document is not blank, the
whole trimmed content becomes one chunk spanning `[0, content.length)`. -/
def mdFinalize (idGen : Nat → String) (docId : String) (content : Text)
    (st : ParaChunkState) : List DocumentChunk :=
  let chunks :=
    if ¬(trim st.current_chunk).isEmpty then
      st.chunks ++ [mkMdChunk idGen docId st (trim st.current_chunk)]
    else st.chunks
  if chunks.isEmpty ∧ ¬(trim content).isEmpty then
    [{ id := idGen 0
       document_id := docId
       chunk_index := 0
       chunk_type := "section"
       content := trim content
       start_offset := 0
       end_offset := content.length }]
  else chunks

/-- `DocumentParser::chunk_markdown`. -/
def chunk_markdown (idGen : Nat → String) (docId : String)
    (content : Text) : List DocumentChunk :=
  mdFinalize idGen docId content
    ((rustLines content).foldl (mdStep idGen docId) ⟨[], [], 0, 0, 0⟩)

/-- `DocumentParser::chunk_document`: the section strategy for markdown,
the paragraph strategy otherwise. -/
def chunk_document (idGen : Nat → String) (docId : String) (content : Text)
    (fileType : String) : List DocumentChunk :=
  if fileType = "md" then chunk_markdown idGen docId content
  else chunk_by_paragraphs idGen docId content

/-! ## Determinism of chunking modulo fresh identifiers (C9) -/

/-- A chunk with its fresh identifier erased: everything the re-chunking
claim compares (owner, index, category tag, content, offsets). -/
structure ChunkData where
  document_id : String
  chunk_index : Nat
  chunk_type : String
  content : Text
  start_offset : Nat
  end_offset : Nat
deriving DecidableEq

/-- Erase the fresh identifier of a chunk. -/
def DocumentChunk.shape (c : DocumentChunk) : ChunkData :=
  ⟨c.document_id, c.chunk_index, c.chunk_type, c.content, c.start_offset,
    c.end_offset⟩

/-- Two chunker states that agree on everything except the identifiers
inside already-emitted chunks. -/
def StRel (st1 st2 : ParaChunkState) : Prop :=
  st1.chunks.map DocumentChunk.shape = st2.chunks.map DocumentChunk.shape ∧
    st1.current_chunk = st2.current_chunk ∧
    st1.chunk_index = st2.chunk_index ∧
    st1.char_offset = st2.char_offset ∧
    st1.chunk_start = st2.chunk_start

theorem paraStep_empty_eq (g : Nat → String) (d : String)
    (st : ParaChunkState) (p : Text) (he : (trim p).isEmpty) :
    paraStep g d st p = { st with char_offset := st.char_offset + 2 } := by
  rw [paraStep, if_pos he]

theorem paraStep_flush_eq (g : Nat → String) (d : String)
    (st : ParaChunkState) (p : Text) (he : ¬(trim p).isEmpty)
    (hf : ¬st.current_chunk.isEmpty ∧
      st.current_chunk.length + (trim p).length + 2 > MAX_CHUNK_SIZE) :
    paraStep g d st p =
      { chunks := st.chunks ++ [mkParaChunk g d st]
        current_chunk := trim p
        chunk_index := st.chunk_index + 1
        char_offset := st.char_offset + (trim p).length + 2
        chunk_start := st.char_offset } := by
  rw [paraStep, if_neg he, if_pos hf]
  rfl

theorem paraStep_accum_eq (g : Nat → String) (d : String)
    (st : ParaChunkState) (p : Text) (he : ¬(trim p).isEmpty)
    (hf : ¬(¬st.current_chunk.isEmpty ∧
      st.current_chunk.length + (trim p).length + 2 > MAX_CHUNK_SIZE)) :
    paraStep g d st p =
      { st with
        current_chunk :=
          if st.current_chunk.isEmpty then trim p
          else st.current_chunk ++ '\n' :: '\n' :: trim p
        char_offset := st.char_offset + (trim p).length + 2 } := by
  rw [paraStep, if_neg he, if_neg hf]

theorem mdStep_heading_eq (g : Nat → String) (d : String)
    (st : ParaChunkState) (line : Text)
    (hh : line.head? = some '#' ∧ ¬(trim st.current_chunk).isEmpty) :
    mdStep g d st line =
      { chunks := st.chunks ++ [mkMdChunk g d st (trim st.current_chunk)]
        current_chunk := line
        chunk_index := st.chunk_index + 1
        char_offset := st.char_offset + line.length + 1
        chunk_start := st.char_offset } := by
  rw [mdStep, if_pos hh]
  rfl

theorem mdStep_flush_eq (g : Nat → String) (d : String)
    (st : ParaChunkState) (line : Text)
    (hh : ¬(line.head? = some '#' ∧ ¬(trim st.current_chunk).isEmpty))
    (hf : ¬st.current_chunk.isEmpty ∧
      st.current_chunk.length + line.length + 1 > MAX_CHUNK_SIZE ∧
      ¬line.head? = some '#') :
    mdStep g d st line =
      { chunks := st.chunks ++ [mkMdChunk g d st (trim st.current_chunk)]
        current_chunk := line
        chunk_index := st.chunk_index + 1
        char_offset := st.char_offset + line.length + 1
        chunk_start := st.char_offset } := by
  rw [mdStep, if_neg hh, if_pos hf]
  rfl

theorem mdStep_accum_eq (g : Nat → String) (d : String)
    (st : ParaChunkState) (line : Text)
    (hh : ¬(line.head? = some '#' ∧ ¬(trim st.current_chunk).isEmpty))
    (hf : ¬(¬st.current_chunk.isEmpty ∧
      st.current_chunk.length + line.length + 1 > MAX_CHUNK_SIZE ∧
      ¬line.head? = some '#')) :
    mdStep g d st line =
      { st with
        current_chunk :=
          if st.current_chunk.isEmpty then line
          else st.current_chunk ++ '\n' :: line
        char_offset := st.char_offset + line.length + 1 } := by
  rw [mdStep, if_neg hh, if_neg hf]

theorem paraStep_stRel (g1 g2 : Nat → String) (d : String)
    (st1 st2 : ParaChunkState) (p : Text) (h : StRel st1 st2) :
    StRel (paraStep g1 d st1 p) (paraStep g2 d st2 p) := by
  obtain ⟨h1, h2, h3, h4, h5⟩ := h
  obtain ⟨c1, cur1, i1, o1, s1⟩ := st1
  obtain ⟨c2, cur2, i2, o2, s2⟩ := st2
  dsimp only at h1 h2 h3 h4 h5
  subst h2; subst h3; subst h4; subst h5
  by_cases he : (trim p).isEmpty
  · rw [paraStep_empty_eq g1 d _ p he, paraStep_empty_eq g2 d _ p he]
    exact ⟨h1, rfl, rfl, rfl, rfl⟩
  · by_cases hf : ¬cur1.isEmpty ∧
        cur1.length + (trim p).length + 2 > MAX_CHUNK_SIZE
    · rw [paraStep_flush_eq g1 d _ p he hf, paraStep_flush_eq g2 d _ p he hf]
      refine ⟨?_, rfl, rfl, rfl, rfl⟩
      show (c1 ++ [mkParaChunk g1 d ⟨c1, cur1, i1, o1, s1⟩]).map
          DocumentChunk.shape =
        (c2 ++ [mkParaChunk g2 d ⟨c2, cur1, i1, o1, s1⟩]).map
          DocumentChunk.shape
      rw [List.map_append, List.map_append, h1]
      rfl
    · rw [paraStep_accum_eq g1 d _ p he hf, paraStep_accum_eq g2 d _ p he hf]
      exact ⟨h1, rfl, rfl, rfl, rfl⟩

theorem mdStep_stRel (g1 g2 : Nat → String) (d : String)
    (st1 st2 : ParaChunkState) (line : Text) (h : StRel st1 st2) :
    StRel (mdStep g1 d st1 line) (mdStep g2 d st2 line) := by
  obtain ⟨h1, h2, h3, h4, h5⟩ := h
  obtain ⟨c1, cur1, i1, o1, s1⟩ := st1
  obtain ⟨c2, cur2, i2, o2, s2⟩ := st2
  dsimp only at h1 h2 h3 h4 h5
  subst h2; subst h3; subst h4; subst h5
  by_cases hh : line.head? = some '#' ∧ ¬(trim cur1).isEmpty
  · rw [mdStep_heading_eq g1 d _ line hh, mdStep_heading_eq g2 d _ line hh]
    refine ⟨?_, rfl, rfl, rfl, rfl⟩
    show (c1 ++ [mkMdChunk g1 d ⟨c1, cur1, i1, o1, s1⟩ (trim cur1)]).map
        DocumentChunk.shape =
      (c2 ++ [mkMdChunk g2 d ⟨c2, cur1, i1, o1, s1⟩ (trim cur1)]).map
        DocumentChunk.shape
    rw [List.map_append, List.map_append, h1]
    rfl
  · by_cases hf : ¬cur1.isEmpty ∧
        cur1.length + line.length + 1 > MAX_CHUNK_SIZE ∧
        ¬line.head? = some '#'
    · rw [mdStep_flush_eq g1 d _ line hh hf, mdStep_flush_eq g2 d _ line hh hf]
      refine ⟨?_, rfl, rfl, rfl, rfl⟩
      show (c1 ++ [mkMdChunk g1 d ⟨c1, cur1, i1, o1, s1⟩ (trim cur1)]).map
          DocumentChunk.shape =
        (c2 ++ [mkMdChunk g2 d ⟨c2, cur1, i1, o1, s1⟩ (trim cur1)]).map
          DocumentChunk.shape
      rw [List.map_append, List.map_append, h1]
      rfl
    · rw [mdStep_accum_eq g1 d _ line hh hf, mdStep_accum_eq g2 d _ line hh hf]
      exact ⟨h1, rfl, rfl, rfl, rfl⟩

theorem paraFold_stRel (g1 g2 : Nat → String) (d : String) (ps : List Text)
    (st1 st2 : ParaChunkState) (h : StRel st1 st2) :
    StRel (ps.foldl (paraStep g1 d) st1) (ps.foldl (paraStep g2 d) st2) := by
  induction ps generalizing st1 st2 with
  | nil => exact h
  | cons p ps ih => exact ih _ _ (paraStep_stRel g1 g2 d st1 st2 p h)

theorem mdFold_stRel (g1 g2 : Nat → String) (d : String) (ls : List Text)
    (st1 st2 : ParaChunkState) (h : StRel st1 st2) :
    StRel (ls.foldl (mdStep g1 d) st1) (ls.foldl (mdStep g2 d) st2) := by
  induction ls generalizing st1 st2 with
  | nil => exact h
  | cons l ls ih => exact ih _ _ (mdStep_stRel g1 g2 d st1 st2 l h)

theorem paraFinalize_push_eq (g : Nat → String) (d : String)
    (st : ParaChunkState)
    (hb1 : ¬st.current_chunk.isEmpty ∧
      st.current_chunk.length ≥ MIN_CHUNK_SIZE) :
    paraFinalize g d st = st.chunks ++ [mkParaChunk g d st] := by
  rw [paraFinalize, if_pos hb1]

theorem paraFinalize_merge_eq (g : Nat → String) (d : String)
    (st : ParaChunkState) (L : List DocumentChunk) (b : DocumentChunk)
    (hLb : st.chunks = L ++ [b])
    (hb1 : ¬(¬st.current_chunk.isEmpty ∧
      st.current_chunk.length ≥ MIN_CHUNK_SIZE))
    (hcur : ¬st.current_chunk.isEmpty) :
    paraFinalize g d st =
      L ++ [{ b with
        content := b.content ++ '\n' :: '\n' :: st.current_chunk
        end_offset := st.char_offset }] := by
  have hb2 : ¬st.current_chunk.isEmpty ∧ ¬st.chunks.isEmpty :=
    ⟨hcur, by rw [hLb]; simp⟩
  rw [paraFinalize, if_neg hb1, if_pos hb2, hLb, List.getLast?_concat,
    List.dropLast_concat]

theorem paraFinalize_single_eq (g : Nat → String) (d : String)
    (st : ParaChunkState)
    (hb1 : ¬(¬st.current_chunk.isEmpty ∧
      st.current_chunk.length ≥ MIN_CHUNK_SIZE))
    (hnil : st.chunks.isEmpty)
    (hcur : ¬st.current_chunk.isEmpty) :
    paraFinalize g d st = st.chunks ++ [mkParaChunk g d st] := by
  rw [paraFinalize, if_neg hb1, if_neg (fun hc => hc.2 hnil), if_pos hcur]

theorem paraFinalize_shape (g1 g2 : Nat → String) (d : String)
    (st1 st2 : ParaChunkState) (h : StRel st1 st2) :
    (paraFinalize g1 d st1).map DocumentChunk.shape =
      (paraFinalize g2 d st2).map DocumentChunk.shape := by
  obtain ⟨h1, h2, h3, h4, h5⟩ := h
  obtain ⟨c1, cur1, i1, o1, s1⟩ := st1
  obtain ⟨c2, cur2, i2, o2, s2⟩ := st2
  dsimp only at h1 h2 h3 h4 h5
  subst h2; subst h3; subst h4; subst h5
  by_cases hcur : cur1.isEmpty
  · rw [paraFinalize_of_empty g1 d _ hcur, paraFinalize_of_empty g2 d _ hcur]
    exact h1
  · by_cases hb1 : ¬cur1.isEmpty ∧ cur1.length ≥ MIN_CHUNK_SIZE
    · rw [paraFinalize_push_eq g1 d _ hb1, paraFinalize_push_eq g2 d _ hb1]
      show (c1 ++ [mkParaChunk g1 d ⟨c1, cur1, i1, o1, s1⟩]).map
          DocumentChunk.shape =
        (c2 ++ [mkParaChunk g2 d ⟨c2, cur1, i1, o1, s1⟩]).map
          DocumentChunk.shape
      rw [List.map_append, List.map_append, h1]
      rfl
    · by_cases hnil : c1.isEmpty
      · have hnil2 : c2.isEmpty = true := by
          rcases c2 with - | ⟨x, xs⟩
          · rfl
          · rcases c1 with - | ⟨y, ys⟩
            · simp at h1
            · simp at hnil
        rw [paraFinalize_single_eq g1 d _ hb1 hnil hcur,
          paraFinalize_single_eq g2 d _ hb1 hnil2 hcur]
        show (c1 ++ [mkParaChunk g1 d ⟨c1, cur1, i1, o1, s1⟩]).map
            DocumentChunk.shape =
          (c2 ++ [mkParaChunk g2 d ⟨c2, cur1, i1, o1, s1⟩]).map
            DocumentChunk.shape
        rw [List.map_append, List.map_append, h1]
        rfl
      · rcases List.eq_nil_or_concat c1 with hc1nil | ⟨L1, b1, hLb1⟩
        · rw [hc1nil] at hnil
          simp at hnil
        · rw [List.concat_eq_append] at hLb1
          rcases List.eq_nil_or_concat c2 with hc2nil | ⟨L2, b2, hLb2⟩
          · rw [hc2nil] at h1
            rw [hLb1] at h1
            simp at h1
          · rw [List.concat_eq_append] at hLb2
            have hshape : b1.shape = b2.shape := by
              have hg := congrArg List.getLast? h1
              rw [List.getLast?_map, List.getLast?_map, hLb1, hLb2,
                List.getLast?_concat, List.getLast?_concat] at hg
              simpa using hg
            have hdrop : L1.map DocumentChunk.shape =
                L2.map DocumentChunk.shape := by
              have hg := congrArg List.dropLast h1
              rw [← List.map_dropLast, ← List.map_dropLast, hLb1, hLb2,
                List.dropLast_concat, List.dropLast_concat] at hg
              exact hg
            rw [paraFinalize_merge_eq g1 d _ L1 b1 hLb1 hb1 hcur,
              paraFinalize_merge_eq g2 d _ L2 b2 hLb2 hb1 hcur]
            rw [List.map_append, List.map_append, hdrop]
            have e1 := congrArg ChunkData.document_id hshape
            have e2 := congrArg ChunkData.chunk_index hshape
            have e3 := congrArg ChunkData.chunk_type hshape
            have e4 := congrArg ChunkData.content hshape
            have e5 := congrArg ChunkData.start_offset hshape
            simp only [List.map_cons, List.map_nil]
            show L2.map DocumentChunk.shape ++
                [ChunkData.mk b1.document_id b1.chunk_index b1.chunk_type
                  (b1.content ++ '\n' :: '\n' :: cur1) b1.start_offset o1] =
              L2.map DocumentChunk.shape ++
                [ChunkData.mk b2.document_id b2.chunk_index b2.chunk_type
                  (b2.content ++ '\n' :: '\n' :: cur1) b2.start_offset o1]
            rw [show ChunkData.document_id b1.shape = b1.document_id from rfl,
              show ChunkData.document_id b2.shape = b2.document_id from rfl]
              at e1
            rw [show ChunkData.chunk_index b1.shape = b1.chunk_index from rfl,
              show ChunkData.chunk_index b2.shape = b2.chunk_index from rfl]
              at e2
            rw [show ChunkData.chunk_type b1.shape = b1.chunk_type from rfl,
              show ChunkData.chunk_type b2.shape = b2.chunk_type from rfl]
              at e3
            rw [show ChunkData.content b1.shape = b1.content from rfl,
              show ChunkData.content b2.shape = b2.content from rfl] at e4
            rw [show ChunkData.start_offset b1.shape = b1.start_offset from rfl,
              show ChunkData.start_offset b2.shape = b2.start_offset from rfl]
              at e5
            rw [e1, e2, e3, e4, e5]

theorem mdFinalize_flush_eq (g : Nat → String) (d : String) (content : Text)
    (st : ParaChunkState) (hc : ¬(trim st.current_chunk).isEmpty) :
    mdFinalize g d content st =
      st.chunks ++ [mkMdChunk g d st (trim st.current_chunk)] := by
  rw [mdFinalize]
  rw [if_pos hc, if_neg (by simp)]

theorem mdFinalize_keep_eq (g : Nat → String) (d : String) (content : Text)
    (st : ParaChunkState) (hc : (trim st.current_chunk).isEmpty)
    (hres : ¬(st.chunks.isEmpty ∧ ¬(trim content).isEmpty)) :
    mdFinalize g d content st = st.chunks := by
  rw [mdFinalize]
  rw [if_neg (not_not_intro hc), if_neg hres]

theorem mdFinalize_degenerate_eq (g : Nat → String) (d : String)
    (content : Text) (st : ParaChunkState)
    (hc : (trim st.current_chunk).isEmpty)
    (hres : st.chunks.isEmpty ∧ ¬(trim content).isEmpty) :
    mdFinalize g d content st =
      [{ id := g 0
         document_id := d
         chunk_index := 0
         chunk_type := "section"
         content := trim content
         start_offset := 0
         end_offset := content.length }] := by
  rw [mdFinalize]
  rw [if_neg (not_not_intro hc), if_pos hres]

theorem map_shape_isEmpty_eq (c1 c2 : List DocumentChunk)
    (h : c1.map DocumentChunk.shape = c2.map DocumentChunk.shape) :
    c1.isEmpty = c2.isEmpty := by
  cases c1 with
  | nil =>
    cases c2 with
    | nil => rfl
    | cons x xs => simp at h
  | cons y ys =>
    cases c2 with
    | nil => simp at h
    | cons x xs => rfl

theorem mdFinalize_shape (g1 g2 : Nat → String) (d : String) (content : Text)
    (st1 st2 : ParaChunkState) (h : StRel st1 st2) :
    (mdFinalize g1 d content st1).map DocumentChunk.shape =
      (mdFinalize g2 d content st2).map DocumentChunk.shape := by
  obtain ⟨h1, h2, h3, h4, h5⟩ := h
  obtain ⟨c1, cur1, i1, o1, s1⟩ := st1
  obtain ⟨c2, cur2, i2, o2, s2⟩ := st2
  dsimp only at h1 h2 h3 h4 h5
  subst h2; subst h3; subst h4; subst h5
  by_cases hc : ¬(trim cur1).isEmpty
  · rw [mdFinalize_flush_eq g1 d content _ hc,
      mdFinalize_flush_eq g2 d content _ hc]
    show (c1 ++ [mkMdChunk g1 d ⟨c1, cur1, i1, o1, s1⟩ (trim cur1)]).map
        DocumentChunk.shape =
      (c2 ++ [mkMdChunk g2 d ⟨c2, cur1, i1, o1, s1⟩ (trim cur1)]).map
        DocumentChunk.shape
    rw [List.map_append, List.map_append, h1]
    rfl
  · have hc2 : (trim cur1).isEmpty := by
      by_cases hx : (trim cur1).isEmpty
      · exact hx
      · exact absurd hx hc
    by_cases hres : c1.isEmpty ∧ ¬(trim content).isEmpty
    · have hres2 : c2.isEmpty ∧ ¬(trim content).isEmpty :=
        ⟨map_shape_isEmpty_eq c1 c2 h1 ▸ hres.1, hres.2⟩
      rw [mdFinalize_degenerate_eq g1 d content _ hc2 hres,
        mdFinalize_degenerate_eq g2 d content _ hc2 hres2]
      rfl
    · have hres2 : ¬(c2.isEmpty ∧ ¬(trim content).isEmpty) := by
        intro hcon
        exact hres ⟨(map_shape_isEmpty_eq c1 c2 h1).symm ▸ hcon.1, hcon.2⟩
      rw [mdFinalize_keep_eq g1 d content _ hc2 hres,
        mdFinalize_keep_eq g2 d content _ hc2 hres2]
      exact h1

/-- C9: chunking the same document identifier, content and content kind in
two runs yields the same chunk sequence up to the fresh chunk identifiers:
equal owners, chunk indices, category tags, contents, and start and end
offsets.  The two id generators model independent draws of
`uuid::Uuid::new_v4()`; everything else in `chunk_document` is a pure
function of its inputs. -/
theorem c9_chunk_document_deterministic (g1 g2 : Nat → String)
    (docId : String) (content : Text) (fileType : String) :
    (chunk_document g1 docId content fileType).map DocumentChunk.shape =
      (chunk_document g2 docId content fileType).map DocumentChunk.shape := by
  rw [chunk_document, chunk_document]
  by_cases hmd : fileType = "md"
  · rw [if_pos hmd, if_pos hmd, chunk_markdown, chunk_markdown]
    exact mdFinalize_shape g1 g2 docId content _ _
      (mdFold_stRel g1 g2 docId (rustLines content) _ _
        ⟨rfl, rfl, rfl, rfl, rfl⟩)
  · rw [if_neg hmd, if_neg hmd, chunk_by_paragraphs, chunk_by_paragraphs]
    exact paraFinalize_shape g1 g2 docId _ _
      (paraFold_stRel g1 g2 docId (splitBlank content) _ _
        ⟨rfl, rfl, rfl, rfl, rfl⟩)

/-! ## Embedding store (`services/duckdb_service.rs`) -/

/-- A row of the `_duckbake_embeddings` table: composite key
`(table_name, source_column, row_id)` with content, float vector, model name
and creation timestamp.  Vectors are modelled over the rationals and the
database clock as an abstract `Nat`. -/
structure EmbeddingRecord where
  table_name : String
  source_column : String
  row_id : Int
  content : String
  embedding : List ℚ
  embedding_model : String
  created_at : Nat
deriving DecidableEq

/-- `get_vectorized_columns`: `SELECT DISTINCT source_column FROM
_duckbake_embeddings WHERE table_name = ?` — the distinct source columns of
the records of one table. -/
def get_vectorized_columns (store : List EmbeddingRecord)
    (table_name : String) : List String :=
  ((store.filter (fun r => r.table_name = table_name)).map
    (fun r => r.source_column)).dedup

/-- `SELECT COUNT(*), MAX(embedding_model) ... WHERE table_name = ?`:
the MAX aggregate over a VARCHAR column is the lexicographically greatest
value, `NULL` on an empty selection. -/
def maxEmbeddingModel (rs : List EmbeddingRecord) : Option String :=
  rs.foldl
    (fun acc r =>
      match acc with
      | none => some r.embedding_model
      | some m => some (max m r.embedding_model))
    none

/-- `models::VectorizationStatus`. -/
structure VectorizationStatus where
  table_name : String
  is_vectorized : Bool
  vectorized_columns : List String
  embedding_count : Nat
  embedding_model : Option String
deriving DecidableEq

/-- `DuckDbService::get_vectorization_status`: `is_vectorized` is the
non-emptiness of the distinct vectorized columns, `embedding_count` the
number of records of the table, `embedding_model` the MAX aggregate. -/
def get_vectorization_status (store : List EmbeddingRecord)
    (table_name : String) : VectorizationStatus :=
  let vectorized_columns := get_vectorized_columns store table_name
  let inScope := store.filter (fun r => r.table_name = table_name)
  { table_name := table_name
    is_vectorized := !vectorized_columns.isEmpty
    vectorized_columns := vectorized_columns
    embedding_count := inScope.length
    embedding_model := maxEmbeddingModel inScope }

/-- Modelled from the spec: "embedding_model is the most recently used
model name across all records of that source" — the model of a record with
maximal creation timestamp.  The code does not compute this; the
definition exists to state the refutation of C6. -/
def mostRecentModel (rs : List EmbeddingRecord) : Option String :=
  (rs.foldl
    (fun acc r =>
      match acc with
      | none => some r
      | some m => if m.created_at ≤ r.created_at then some r else some m)
    none).map (fun r => r.embedding_model)

/-- `DuckDbService::remove_vectorization`: `DELETE FROM _duckbake_embeddings
WHERE table_name = ?` (a no-op when the table does not exist, i.e. when the
store is empty). -/
def remove_vectorization (store : List EmbeddingRecord)
    (table_name : String) : List EmbeddingRecord :=
  store.filter (fun r => ¬r.table_name = table_name)

/-- `DuckDbService::store_embeddings`: one batched INSERT of
`(row_id, content, embedding)` triples for a `(table, column-key)` source.
The `created_at` column is filled by the database clock, which the claims
do not inspect; it is modelled as 0. -/
def store_embeddings (store : List EmbeddingRecord)
    (table_name column_name : String) (rows : List (Int × String × List ℚ))
    (model : String) : List EmbeddingRecord :=
  store ++ rows.map (fun r =>
    { table_name := table_name
      source_column := column_name
      row_id := r.1
      content := r.2.1
      embedding := r.2.2
      embedding_model := model
      created_at := 0 })

/-- `DuckDbService::semantic_search`: score every record of the table
against the query vector, `ORDER BY similarity DESC`, `LIMIT k`.  The
engine built-in `list_cosine_similarity` is an external collaborator and is
passed in as the score function `sim`. -/
def semantic_search (sim : List ℚ → List ℚ → ℚ)
    (store : List EmbeddingRecord) (table_name : String)
    (query_embedding : List ℚ) (lim : Nat) : List (Int × String × ℚ) :=
  let inScope := store.filter (fun r => r.table_name = table_name)
  let scored := inScope.map (fun r =>
    (r.row_id, r.content, sim r.embedding query_embedding))
  (scored.mergeSort (fun a b => decide (b.2.2 ≤ a.2.2))).take lim

/-- C5: for every score function (in particular the engine's cosine
similarity), every store, scope and query, the search result is ordered by
non-increasing score, and when `k` is at least the number of records in
scope the result is a permutation of all scored records (all `n` records
are returned). -/
theorem c5_search_sorted_and_complete (sim : List ℚ → List ℚ → ℚ)
    (store : List EmbeddingRecord) (table_name : String)
    (query_embedding : List ℚ) (lim : Nat) :
    (semantic_search sim store table_name query_embedding lim).Pairwise
      (fun a b => b.2.2 ≤ a.2.2) ∧
    ((store.filter (fun r => r.table_name = table_name)).length ≤ lim →
      (semantic_search sim store table_name query_embedding lim).Perm
        ((store.filter (fun r => r.table_name = table_name)).map (fun r =>
          (r.row_id, r.content, sim r.embedding query_embedding)))) := by
  rw [semantic_search]
  constructor
  · have hsorted := @List.sorted_mergeSort (Int × String × ℚ)
      (fun (a b : Int × String × ℚ) => decide (b.2.2 ≤ a.2.2))
      (fun a b c hab hbc => by
        simp only [decide_eq_true_eq] at *
        exact le_trans hbc hab)
      (fun a b => by
        simp only [Bool.or_eq_true, decide_eq_true_eq]
        exact le_total b.2.2 a.2.2)
      ((store.filter (fun r => r.table_name = table_name)).map (fun r =>
        (r.row_id, r.content, sim r.embedding query_embedding)))
    have htake := hsorted.sublist (List.take_sublist lim _)
    exact htake.imp (fun hab => by simpa using hab)
  · intro hk
    have hlen : ((store.filter (fun r => r.table_name = table_name)).map
        (fun r => (r.row_id, r.content,
          sim r.embedding query_embedding))).length ≤ lim := by
      rw [List.length_map]
      exact hk
    rw [List.take_of_length_le (by rw [List.length_mergeSort]; exact hlen)]
    exact List.mergeSort_perm _ _

/-- A two-record store used to instantiate store-level theorems. -/
def demoStore : List EmbeddingRecord :=
  [{ table_name := "t", source_column := "c", row_id := 0, content := "x",
     embedding := [1], embedding_model := "b", created_at := 0 },
   { table_name := "t", source_column := "c", row_id := 1, content := "y",
     embedding := [2], embedding_model := "a", created_at := 1 }]

/-- C5 witness: the search theorem applied to a concrete two-record store
with `k = 5 ≥ 2`. -/
theorem c5_search_witness :
    (semantic_search (fun _ _ => 0) demoStore "t" [1] 5).Pairwise
      (fun a b => b.2.2 ≤ a.2.2) ∧
    (semantic_search (fun _ _ => 0) demoStore "t" [1] 5).Perm
      ((demoStore.filter (fun r => r.table_name = "t")).map (fun r =>
        (r.row_id, r.content, (fun (_ _ : List ℚ) => (0 : ℚ))
          r.embedding [1]))) :=
  ⟨(c5_search_sorted_and_complete (fun _ _ => 0) demoStore "t" [1] 5).1,
   (c5_search_sorted_and_complete (fun _ _ => 0) demoStore "t" [1] 5).2
     (by decide)⟩

theorem foldl_max_spec (l : List String) (m0 : String) :
    (l.foldl max m0 = m0 ∨ l.foldl max m0 ∈ l) ∧
      m0 ≤ l.foldl max m0 ∧ ∀ x ∈ l, x ≤ l.foldl max m0 := by
  induction l generalizing m0 with
  | nil => exact ⟨Or.inl rfl, le_refl m0, by simp⟩
  | cons a l ih =>
    obtain ⟨hmem, hle, hall⟩ := ih (max m0 a)
    simp only [List.foldl_cons]
    refine ⟨?_, le_trans (le_max_left m0 a) hle, ?_⟩
    · rcases hmem with hm | hm
      · rcases max_choice m0 a with hc | hc
        · exact Or.inl (by rw [hm, hc])
        · refine Or.inr ?_
          rw [hm, hc]
          exact List.mem_cons_self a l
      · exact Or.inr (List.mem_cons_of_mem a hm)
    · intro x hx
      rcases List.mem_cons.mp hx with hx | hx
      · rw [hx]
        exact le_trans (le_max_right m0 a) hle
      · exact hall x hx

theorem maxEmbeddingModel_some_acc (rs : List EmbeddingRecord) (m0 : String) :
    rs.foldl
      (fun acc r =>
        match acc with
        | none => some r.embedding_model
        | some m => some (max m r.embedding_model))
      (some m0) =
      some ((rs.map (fun r => r.embedding_model)).foldl max m0) := by
  induction rs generalizing m0 with
  | nil => rfl
  | cons r rs ih => simpa using ih (max m0 r.embedding_model)

theorem maxEmbeddingModel_cons (r : EmbeddingRecord)
    (rs : List EmbeddingRecord) :
    maxEmbeddingModel (r :: rs) =
      some ((rs.map (fun s => s.embedding_model)).foldl max
        r.embedding_model) := by
  rw [maxEmbeddingModel, List.foldl_cons]
  exact maxEmbeddingModel_some_acc rs r.embedding_model

/-- C6 (amended): `is_vectorized` is true exactly when at least one record
of the source exists, and `embedding_model`, when present, is the
LEXICOGRAPHICALLY GREATEST model name across the source's records (the SQL
`MAX` aggregate), present exactly when a record exists — not the most
recently used model. -/
theorem c6_status_max_model (store : List EmbeddingRecord) (t : String) :
    ((get_vectorization_status store t).is_vectorized = true ↔
      ∃ r ∈ store, r.table_name = t) ∧
    (∀ m, (get_vectorization_status store t).embedding_model = some m →
      (∃ r ∈ store, r.table_name = t ∧ r.embedding_model = m) ∧
      ∀ r ∈ store, r.table_name = t → r.embedding_model ≤ m) ∧
    ((get_vectorization_status store t).embedding_model = none ↔
      ¬∃ r ∈ store, r.table_name = t) := by
  refine ⟨?_, ?_, ?_⟩
  · show (!(get_vectorized_columns store t).isEmpty) = true ↔ _
    rw [Bool.not_eq_eq_eq_not, Bool.not_true, List.isEmpty_eq_false, ne_eq,
      get_vectorized_columns, List.dedup_eq_nil, List.map_eq_nil_iff]
    constructor
    · intro hne
      rcases List.exists_mem_of_ne_nil _ hne with ⟨r, hr⟩

      rcases List.mem_filter.mp hr with ⟨hr1, hr2⟩
      exact ⟨r, hr1, by simpa using hr2⟩
    · rintro ⟨r, hr1, hr2⟩
      intro hnil
      have : r ∈ store.filter (fun r => r.table_name = t) :=
        List.mem_filter.mpr ⟨hr1, by simpa using hr2⟩
      rw [hnil] at this
      simp at this
  · intro m hm
    show _ ∧ ∀ r ∈ store, r.table_name = t → r.embedding_model ≤ m
    have hm2 : maxEmbeddingModel (store.filter (fun r => r.table_name = t)) =
        some m := hm
    cases hscope : store.filter (fun r => r.table_name = t) with
    | nil =>
      rw [hscope] at hm2
      simp [maxEmbeddingModel] at hm2
    | cons r0 rest =>
      rw [hscope, maxEmbeddingModel_cons] at hm2
      injection hm2 with hm3
      obtain ⟨hmem, hle, hall⟩ :=
        foldl_max_spec (rest.map (fun s => s.embedding_model))
          r0.embedding_model
      constructor
      · rcases hmem with hx | hx
        · refine ⟨r0, ?_, ?_, by rw [← hm3, hx]⟩
          · have : r0 ∈ store.filter (fun r => r.table_name = t) := by
              rw [hscope]; simp
            exact (List.mem_filter.mp this).1
          · have : r0 ∈ store.filter (fun r => r.table_name = t) := by
              rw [hscope]; simp
            simpa using (List.mem_filter.mp this).2
        · rcases List.mem_map.mp hx with ⟨s, hs1, hs2⟩
          refine ⟨s, ?_, ?_, by rw [← hm3, ← hs2]⟩
          · have : s ∈ store.filter (fun r => r.table_name = t) := by
              rw [hscope]; simp [hs1]
            exact (List.mem_filter.mp this).1
          · have : s ∈ store.filter (fun r => r.table_name = t) := by
              rw [hscope]; simp [hs1]
            simpa using (List.mem_filter.mp this).2
      · intro r hr hrt
        have hrf : r ∈ store.filter (fun s => s.table_name = t) :=
          List.mem_filter.mpr ⟨hr, by simpa using hrt⟩
        rw [hscope] at hrf
        rcases List.mem_cons.mp hrf with hr0 | hrest
        · rw [hr0, ← hm3]
          exact hle
        · rw [← hm3]
          exact hall r.embedding_model
            (List.mem_map.mpr ⟨r, hrest, rfl⟩)
  · show maxEmbeddingModel (store.filter (fun r => r.table_name = t)) =
        none ↔ _
    cases hscope : store.filter (fun r => r.table_name = t) with
    | nil =>
      simp only [maxEmbeddingModel, List.foldl_nil, true_iff]
      rintro ⟨r, hr1, hr2⟩
      have : r ∈ store.filter (fun r => r.table_name = t) :=
        List.mem_filter.mpr ⟨hr1, by simpa using hr2⟩
      rw [hscope] at this
      simp at this
    | cons r0 rest =>
      rw [maxEmbeddingModel_cons]
      simp only [reduceCtorEq, false_iff, not_not]
      have : r0 ∈ store.filter (fun r => r.table_name = t) := by
        rw [hscope]; simp
      exact ⟨r0, (List.mem_filter.mp this).1,
        by simpa using (List.mem_filter.mp this).2⟩

/-- C6 counterexample: a source with an older record of model "b" and a
newer record of model "a"; the status reports "b" (the lexicographic MAX)
while the most recently used model is "a". -/
theorem c6_not_most_recent :
    (get_vectorization_status demoStore "t").embedding_model = some "b" ∧
      mostRecentModel (demoStore.filter (fun r => r.table_name = "t")) =
        some "a" ∧
      ("b" : String) ≠ "a" := by
  refine ⟨?_, by rfl, by decide⟩
  show maxEmbeddingModel _ = some "b"
  rw [show demoStore.filter (fun r => r.table_name = "t") = demoStore by rfl]
  rw [demoStore, maxEmbeddingModel_cons]
  simp only [List.map_cons, List.map_nil, List.foldl_cons, List.foldl_nil]
  rw [show max "b" "a" = "b" from max_eq_left (by
    rw [String.le_iff_toList_le]
    decide)]

/-- C6 witness: the amended status theorem applied to the two-record
store. -/
theorem c6_status_max_model_witness :
    (∃ r ∈ demoStore, r.table_name = "t" ∧ r.embedding_model = "b") ∧
      ∀ r ∈ demoStore, r.table_name = "t" → r.embedding_model ≤ "b" :=
  (c6_status_max_model demoStore "t").2.1 "b" (by
    show maxEmbeddingModel _ = some "b"
    rw [show demoStore.filter (fun r => r.table_name = "t") = demoStore
      by rfl]
    rw [demoStore, maxEmbeddingModel_cons]
    simp only [List.map_cons, List.map_nil, List.foldl_cons, List.foldl_nil]
    rw [show max "b" "a" = "b" from max_eq_left (by
      rw [String.le_iff_toList_le]
      decide)])

/-! ## Batch orchestrator — table flow (`commands/vectorization.rs`) -/

/-- `BATCH_SIZE` in `commands/vectorization.rs`. -/
def TABLE_BATCH_SIZE : Nat := 50

/-- `BATCH_SIZE` in `commands/documents.rs`. -/
def DOC_BATCH_SIZE : Nat := 20

/-- `DEFAULT_EMBEDDING_MODEL`. -/
def DEFAULT_EMBEDDING_MODEL : String := "nomic-embed-text"

/-- `models::VectorizationProgress`, the payload of the
"vectorization-progress" event. -/
structure VectorizationProgress where
  table_name : String
  total_rows : Int
  processed_rows : Int
  status : String
  error : Option String
deriving DecidableEq

/-- The environment of one `vectorize_table` invocation: its arguments,
the `COUNT(*)` result, the table contents as paged by
`get_text_for_vectorization` (row id and combined text per row), and the
outcome of each Ollama call.  `embed i ts` is the outcome of the `i`-th
`generate_embeddings` call, whose request carries the texts `ts`; indexing
by call number models a stateful external service. -/
structure TableEnv where
  table_name : String
  columns : List String
  total_rows : Int
  rows : List (Int × String)
  warmup : Except String Unit
  embed : Nat → List String → Except String (List (List ℚ))

/-- Everything observable of one `vectorize_table` run: the command's
return value, the emitted progress events in order, and the final
`_duckbake_embeddings` table. -/
structure TableRunResult where
  result : Except String Unit
  events : List VectorizationProgress
  store : List EmbeddingRecord

/-- The zip in `vectorize_table`:
`row_ids.into_iter().zip(texts).zip(embeddings).map(|((id, text), emb)| ..)`
— NOTE that `zip` silently truncates to the shorter operand. -/
def zipEmbeddingRows (row_ids : List Int) (texts : List String)
    (embeddings : List (List ℚ)) : List (Int × String × List ℚ) :=
  ((row_ids.zip texts).zip embeddings).map (fun p => (p.1.1, p.1.2, p.2))

/-- The `loop` of `vectorize_table`: check the cancellation flag (the
oracle `cancel i` is the reading of `should_cancel_vectorization` at the
`i`-th boundary; the observed-cancellation clear is absorbed into the
oracle), fetch a page, break when empty, call the embedding client, zip,
store, advance, emit progress. -/
def vectorizeTableLoop (env : TableEnv) (cancel : Nat → Bool) :
    List (Int × String) → Nat → Int → List VectorizationProgress →
      List EmbeddingRecord → TableRunResult
  | pending, callIdx, processed, events, store =>
    if cancel callIdx then
      { result := Except.ok ()
        events := events ++
          [⟨env.table_name, env.total_rows, processed, "cancelled", none⟩]
        store := store }
    else
      if hrows : (pending.take TABLE_BATCH_SIZE).isEmpty then
        { result := Except.ok ()
          events := events ++
            [⟨env.table_name, env.total_rows, processed, "completed", none⟩]
          store := store }
      else
        let rows := pending.take TABLE_BATCH_SIZE
        let texts := rows.map (fun r => r.2)
        let row_ids := rows.map (fun r => r.1)
        match env.embed callIdx texts with
        | Except.error e =>
          { result := Except.error e, events := events, store := store }
        | Except.ok embeddings =>
          let embedding_rows := zipEmbeddingRows row_ids texts embeddings
          let store1 := store_embeddings store env.table_name
            (String.intercalate "+" env.columns) embedding_rows
            DEFAULT_EMBEDDING_MODEL
          let processed1 := processed + (rows.length : Int)
          vectorizeTableLoop env cancel (pending.drop TABLE_BATCH_SIZE)
            (callIdx + 1) processed1
            (events ++
              [⟨env.table_name, env.total_rows, processed1, "processing",
                none⟩])
            store1
termination_by pending _ _ _ _ => pending.length
decreasing_by
  simp only [List.length_drop]
  have hne : pending ≠ [] := by
    intro hnil
    rw [hnil] at hrows
    simp at hrows
  have hpos : 0 < pending.length := List.length_pos.mpr hne
  rw [TABLE_BATCH_SIZE]
  omega

/-- `commands::vectorization::vectorize_table`: count, emit
`loading_model`, warm up (emitting `error` and returning the error when it
fails, before any row is fetched or removed), emit `processing`, initialize
the embeddings table and remove the source's prior records, clear any
stale cancellation flag (absorbed into the oracle), then run the batch
loop. -/
def vectorize_table (env : TableEnv) (cancel : Nat → Bool)
    (store0 : List EmbeddingRecord) : TableRunResult :=
  let ev0 := [⟨env.table_name, env.total_rows, 0, "loading_model", none⟩]
  match env.warmup with
  | Except.error e =>
    { result := Except.error e
      events := ev0 ++
        [⟨env.table_name, env.total_rows, 0, "error", some e⟩]
      store := store0 }
  | Except.ok _ =>
    let ev1 := ev0 ++
      [⟨env.table_name, env.total_rows, 0, "processing", none⟩]
    let store1 := remove_vectorization store0 env.table_name
    vectorizeTableLoop env cancel env.rows 0 0 ev1 store1

/-! ## Batch orchestrator — document flow (`commands/documents.rs`) -/

/-- `models::DocumentVectorizationProgress`, the payload of the
"document-vectorization-progress" event. -/
structure DocumentVectorizationProgress where
  document_id : String
  document_name : String
  total_chunks : Int
  processed_chunks : Int
  status : String
  error : Option String
deriving DecidableEq

/-- A row of `_duckbake_document_chunks` as the document flow touches it:
chunk id, content, and the embedding columns filled in by
`store_document_chunk_embeddings`. -/
structure StoredChunk where
  id : String
  content : String
  embedding : Option (List ℚ)
  embedding_model : Option String
deriving DecidableEq

/-- The environment of one `vectorize_document` invocation: the fetched
document (its id and filename), its chunk rows in `chunk_index` order, and
the outcome of each Ollama call. -/
structure DocEnv where
  document_id : String
  document_name : String
  chunks : List StoredChunk
  warmup : Except String Unit
  embed : Nat → List String → Except String (List (List ℚ))

/-- Everything observable of one `vectorize_document` run: the command's
return value, the emitted progress events, the final chunk table, the
document's `is_vectorized` flag, and the process-wide cancellation set
(which this command never reads, writes or clears). -/
structure DocRunResult where
  result : Except String Unit
  events : List DocumentVectorizationProgress
  chunk_table : List StoredChunk
  doc_vectorized : Bool
  cancellations : List String

/-- `DuckDbService::store_document_chunk_embeddings`: one UPDATE per
`(chunk_id, embedding)` pair, setting the embedding and model of the rows
with that id. -/
def store_document_chunk_embeddings (table : List StoredChunk)
    (pairs : List (String × List ℚ)) (model : String) : List StoredChunk :=
  pairs.foldl
    (fun tbl p => tbl.map (fun c =>
      if c.id = p.1 then
        { c with embedding := some p.2, embedding_model := some model }
      else c))
    table

/-- The `for chunk_batch in chunks.chunks(BATCH_SIZE)` loop of
`vectorize_document`, followed by `mark_document_vectorized` and the
`completed` event.  There is NO cancellation check anywhere in this flow:
the cancellation set is passed through untouched. -/
def vectorizeDocLoop (env : DocEnv) :
    List StoredChunk → Nat → Int → List DocumentVectorizationProgress →
      List StoredChunk → Bool → List String → DocRunResult
  | pending, callIdx, processed, events, table, docVec, cancels =>
    if hpending : pending.isEmpty then
      { result := Except.ok ()
        events := events ++
          [⟨env.document_id, env.document_name, (env.chunks.length : Int),
            processed, "completed", none⟩]
        chunk_table := table
        doc_vectorized := true
        cancellations := cancels }
    else
      let chunk_batch := pending.take DOC_BATCH_SIZE
      let texts := chunk_batch.map (fun c => c.content)
      let chunk_ids := chunk_batch.map (fun c => c.id)
      match env.embed callIdx texts with
      | Except.error e =>
        { result := Except.error e
          events := events
          chunk_table := table
          doc_vectorized := docVec
          cancellations := cancels }
      | Except.ok embeddings =>
        let chunk_embeddings := chunk_ids.zip embeddings
        let table1 := store_document_chunk_embeddings table chunk_embeddings
          DEFAULT_EMBEDDING_MODEL
        let processed1 := processed + (chunk_batch.length : Int)
        vectorizeDocLoop env (pending.drop DOC_BATCH_SIZE) (callIdx + 1)
          processed1
          (events ++
            [⟨env.document_id, env.document_name,
              (env.chunks.length : Int), processed1, "processing", none⟩])
          table1 docVec cancels
termination_by pending _ _ _ _ _ _ => pending.length
decreasing_by
  simp only [List.length_drop]
  have hne : pending ≠ [] := by
    intro hnil
    rw [hnil] at hpending
    simp at hpending
  have hpos : 0 < pending.length := List.length_pos.mpr hne
  rw [DOC_BATCH_SIZE]
  omega

/-- `commands::documents::vectorize_document`: fetch the document and its
chunks, emit `loading_model`, warm up (emitting `error` and returning the
error when it fails), emit `processing`, then process the chunks in batches
of 20, finally marking the document vectorized and emitting `completed`.
The command never consults `AppState.vectorization_cancellations`. -/
def vectorize_document (env : DocEnv) (docVec0 : Bool)
    (cancels : List String) : DocRunResult :=
  let ev0 := [⟨env.document_id, env.document_name,
    (env.chunks.length : Int), 0, "loading_model", none⟩]
  match env.warmup with
  | Except.error e =>
    { result := Except.error e
      events := ev0 ++
        [⟨env.document_id, env.document_name, (env.chunks.length : Int), 0,
          "error", some e⟩]
      chunk_table := env.chunks
      doc_vectorized := docVec0
      cancellations := cancels }
  | Except.ok _ =>
    let ev1 := ev0 ++
      [⟨env.document_id, env.document_name, (env.chunks.length : Int), 0,
        "processing", none⟩]
    vectorizeDocLoop env env.chunks 0 0 ev1 env.chunks docVec0 cancels

/-- C7: when the warm-up call fails, the table job returns that error
directly, the two emitted events are `loading_model` and `error` (the
latter carrying the warm-up message), the embedding store is untouched —
prior records of the source included — and the whole run is independent of
the table contents (no rows are ever fetched on this path). -/
theorem c7_warmup_failure_frame (env : TableEnv) (cancel : Nat → Bool)
    (store0 : List EmbeddingRecord) (e : String)
    (hw : env.warmup = Except.error e) :
    (vectorize_table env cancel store0).result = Except.error e ∧
    (vectorize_table env cancel store0).store = store0 ∧
    (vectorize_table env cancel store0).events =
      [⟨env.table_name, env.total_rows, 0, "loading_model", none⟩,
       ⟨env.table_name, env.total_rows, 0, "error", some e⟩] ∧
    (∀ rows2, vectorize_table { env with rows := rows2 } cancel store0 =
      vectorize_table env cancel store0) := by
  refine ⟨?_, ?_, ?_, ?_⟩
  · rw [vectorize_table, hw]
  · rw [vectorize_table, hw]
  · rw [vectorize_table, hw]
    rfl
  · intro rows2
    simp only [vectorize_table, hw]

/-- A concrete environment whose warm-up call fails. -/
def envWarmupFail : TableEnv :=
  { table_name := "t"
    columns := ["c"]
    total_rows := 3
    rows := [(0, "a")]
    warmup := Except.error "warmup failed"
    embed := fun _ _ => Except.ok [] }

/-- C7 witness: the warm-up-failure theorem applied to a concrete
environment. -/
theorem c7_warmup_failure_witness :
    (vectorize_table envWarmupFail (fun _ => false) []).result =
      Except.error "warmup failed" ∧
    (vectorize_table envWarmupFail (fun _ => false) []).store = [] ∧
    (vectorize_table envWarmupFail (fun _ => false) []).events =
      [⟨"t", 3, 0, "loading_model", none⟩,
       ⟨"t", 3, 0, "error", some "warmup failed"⟩] ∧
    (∀ rows2, vectorize_table { envWarmupFail with rows := rows2 }
        (fun _ => false) [] =
      vectorize_table envWarmupFail (fun _ => false) []) :=
  c7_warmup_failure_frame envWarmupFail (fun _ => false) []
    "warmup failed" rfl

theorem zipEmbeddingRows_eq_zip (ids : List Int) (texts : List String)
    (embs : List (List ℚ)) :
    zipEmbeddingRows ids texts embs = ids.zip (texts.zip embs) := by
  induction ids generalizing texts embs with
  | nil => rfl
  | cons a ids ih =>
    cases texts with
    | nil => rfl
    | cons b texts =>
      cases embs with
      | nil => rfl
      | cons c embs =>
        show (a, b, c) :: zipEmbeddingRows ids texts embs = _
        rw [ih, List.zip_cons_cons, List.zip_cons_cons]

theorem zipEmbeddingRows_length (ids : List Int) (texts : List String)
    (embs : List (List ℚ)) :
    (zipEmbeddingRows ids texts embs).length =
      min (min ids.length texts.length) embs.length := by
  rw [zipEmbeddingRows, List.length_map, List.length_zip, List.length_zip]

/-- A concrete environment for the alignment counterexample: two rows, but
the embedding client answers the first batch with a single vector. -/
def envC1 : TableEnv :=
  { table_name := "t"
    columns := ["c"]
    total_rows := 2
    rows := [(0, "a"), (1, "b")]
    warmup := Except.ok ()
    embed := fun _ _ => Except.ok [[1]] }

/-- C1 counterexample: with two input texts and one returned vector the
job does NOT raise an error: it stores the single truncated pair and
reports `completed`. -/
theorem c1_mismatch_not_an_error :
    (vectorize_table envC1 (fun _ => false) []).result = Except.ok () ∧
    (vectorize_table envC1 (fun _ => false) []).store.length = 1 ∧
    (vectorize_table envC1 (fun _ => false) []).events.map
      (fun ev => ev.status) =
      ["loading_model", "processing", "processing", "completed"] ∧
    (envC1.rows.map (fun r => r.2)).length = 2 := by
  refine ⟨?_, ?_, ?_, by rfl⟩ <;>
    simp [vectorize_table, envC1, vectorizeTableLoop, zipEmbeddingRows,
      store_embeddings, remove_vectorization, TABLE_BATCH_SIZE,
      DEFAULT_EMBEDDING_MODEL]

theorem store_chunk_cons_pair (tbl : List StoredChunk)
    (p : String × List ℚ) (ps : List (String × List ℚ)) (m : String) :
    store_document_chunk_embeddings tbl (p :: ps) m =
      store_document_chunk_embeddings
        (tbl.map (fun c =>
          if c.id = p.1 then
            { c with embedding := some p.2, embedding_model := some m }
          else c))
        ps m := rfl

theorem store_chunk_skip (ps : List (String × List ℚ)) (m : String) :
    ∀ (tbl : List StoredChunk) (c : StoredChunk),
    c.id ∉ ps.map Prod.fst →
    store_document_chunk_embeddings (c :: tbl) ps m =
      c :: store_document_chunk_embeddings tbl ps m := by
  induction ps with
  | nil => intro tbl c hid; rfl
  | cons p ps ih =>
    intro tbl c hid
    show store_document_chunk_embeddings ((c :: tbl).map _) ps m =
      c :: store_document_chunk_embeddings (tbl.map _) ps m
    rw [List.map_cons]
    rw [if_neg (by
      intro hc
      exact hid (by simp [hc]))]
    exact ih _ c (fun hm => hid (by simp [hm]))

theorem store_chunk_map_noop (p : String × List ℚ) (m : String)
    (cs : List StoredChunk) (h : ∀ x ∈ cs, x.id ≠ p.1) :
    cs.map (fun c =>
      if c.id = p.1 then
        { c with embedding := some p.2, embedding_model := some m }
      else c) = cs := by
  induction cs with
  | nil => rfl
  | cons c cs ih =>
    rw [List.map_cons, if_neg (h c (by simp)),
      ih (fun x hx => h x (by simp [hx]))]

theorem store_chunk_zip (m : String) :
    ∀ (chunks : List StoredChunk) (vs : List (List ℚ)),
    (chunks.map (fun c => c.id)).Nodup →
    vs.length ≤ chunks.length →
    (store_document_chunk_embeddings chunks
        ((chunks.map (fun c => c.id)).zip vs) m).map
      (fun c => c.embedding) =
      vs.map some ++ (chunks.drop vs.length).map (fun c => c.embedding) := by
  intro chunks
  induction chunks with
  | nil =>
    intro vs hnodup hlen
    have : vs = [] := List.length_eq_zero.mp (Nat.le_zero.mp hlen)
    rw [this]
    rfl
  | cons c cs ih =>
    intro vs hnodup hlen
    cases vs with
    | nil => simp [store_document_chunk_embeddings]
    | cons v vt =>
      rw [List.map_cons, List.zip_cons_cons]
      have hnodup2 : (c.id :: cs.map (fun s => s.id)).Nodup := by
        simpa using hnodup
      have hnotin : c.id ∉ cs.map (fun s => s.id) :=
        (List.nodup_cons.mp hnodup2).1
      rw [store_chunk_cons_pair, List.map_cons, if_pos rfl,
        store_chunk_map_noop (c.id, v) m cs
          (fun x hx hc => hnotin (List.mem_map.mpr ⟨x, hx, hc⟩))]
      rw [store_chunk_skip _ m cs _ (by
        intro hmem
        rcases List.mem_map.mp hmem with ⟨pr, hpr, hfst⟩
        rcases List.of_mem_zip hpr with ⟨hid, -⟩
        exact hnotin (by
          show c.id ∈ _
          rw [← hfst]
          exact hid))]
      rw [List.map_cons]
      rw [ih vt (List.nodup_cons.mp hnodup2).2 (by simpa using hlen)]
      simp

/-- C1 (amended): within a batch the texts and row ids always agree in
count (both are projections of the same fetched page), but a vector-count
mismatch from the embedding client raises NO error: `zip` silently
truncates the batch to the shorter side, pairing the i-th id with the i-th
vector, and the job completes normally.  Stated for the pairing function
itself and for single-batch runs of both flows with fewer returned vectors
than texts. -/
theorem c1_zip_truncates_silently :
    (∀ (ids : List Int) (texts : List String) (embs : List (List ℚ)),
      zipEmbeddingRows ids texts embs = ids.zip (texts.zip embs) ∧
      (zipEmbeddingRows ids texts embs).length =
        min (min ids.length texts.length) embs.length) ∧
    (∀ (env : TableEnv) (store0 : List EmbeddingRecord)
        (vs : List (List ℚ)),
      env.warmup = Except.ok () →
      env.rows ≠ [] →
      env.rows.length ≤ TABLE_BATCH_SIZE →
      env.embed 0 (env.rows.map (fun r => r.2)) = Except.ok vs →
      vs.length ≤ env.rows.length →
      (vectorize_table env (fun _ => false) store0).result = Except.ok () ∧
      ((vectorize_table env (fun _ => false) store0).events.map
        (fun ev => ev.status)) =
        ["loading_model", "processing", "processing", "completed"] ∧
      (vectorize_table env (fun _ => false) store0).store.map
        (fun r => (r.row_id, r.content, r.embedding)) =
        (remove_vectorization store0 env.table_name).map
          (fun r => (r.row_id, r.content, r.embedding)) ++
          (env.rows.map (fun r => r.1)).zip
            ((env.rows.map (fun r => r.2)).zip vs)) ∧
    (∀ (env : DocEnv) (docVec0 : Bool) (cancels : List String)
        (vs : List (List ℚ)),
      env.warmup = Except.ok () →
      env.chunks ≠ [] →
      env.chunks.length ≤ DOC_BATCH_SIZE →
      env.embed 0 (env.chunks.map (fun c => c.content)) = Except.ok vs →
      (env.chunks.map (fun c => c.id)).Nodup →
      vs.length ≤ env.chunks.length →
      (vectorize_document env docVec0 cancels).result = Except.ok () ∧
      ((vectorize_document env docVec0 cancels).events.map
        (fun ev => ev.status)) =
        ["loading_model", "processing", "processing", "completed"] ∧
      (vectorize_document env docVec0 cancels).chunk_table.map
        (fun c => c.embedding) =
        vs.map some ++
          (env.chunks.drop vs.length).map (fun c => c.embedding)) := by
  refine ⟨fun ids texts embs =>
    ⟨zipEmbeddingRows_eq_zip ids texts embs,
     zipEmbeddingRows_length ids texts embs⟩, ?_, ?_⟩
  · intro env store0 vs hw hne hlen he hvs
    have hloop : ∀ (events : List VectorizationProgress)
        (store : List EmbeddingRecord),
        vectorizeTableLoop env (fun _ => false) env.rows 0 0 events store =
        { result := Except.ok ()
          events := events ++
            [⟨env.table_name, env.total_rows, 0 + (env.rows.length : Int),
              "processing", none⟩,
             ⟨env.table_name, env.total_rows, 0 + (env.rows.length : Int),
              "completed", none⟩]
          store := store_embeddings store env.table_name
            (String.intercalate "+" env.columns)
            (zipEmbeddingRows (env.rows.map (fun r => r.1))
              (env.rows.map (fun r => r.2)) vs)
            DEFAULT_EMBEDDING_MODEL } := by
      intro events store
      rw [vectorizeTableLoop]
      simp only [List.take_of_length_le hlen, List.drop_eq_nil_of_le hlen,
        he]
      rw [dif_neg (by simpa using hne)]
      rw [vectorizeTableLoop]
      simp
    rw [vectorize_table, hw]
    rw [hloop]
    refine ⟨rfl, by simp, ?_⟩
    simp only [store_embeddings, List.map_append, List.map_map]
    rw [zipEmbeddingRows_eq_zip]
    congr 1
    exact List.map_id'' (fun r => rfl) _
  · intro env docVec0 cancels vs hw hne hlen he hnodup hvs
    have hloop : ∀ (events : List DocumentVectorizationProgress),
        vectorizeDocLoop env env.chunks 0 0 events env.chunks docVec0
          cancels =
        { result := Except.ok ()
          events := events ++
            [⟨env.document_id, env.document_name,
              (env.chunks.length : Int), 0 + (env.chunks.length : Int),
              "processing", none⟩,
             ⟨env.document_id, env.document_name,
              (env.chunks.length : Int), 0 + (env.chunks.length : Int),
              "completed", none⟩]
          chunk_table := store_document_chunk_embeddings env.chunks
            ((env.chunks.map (fun c => c.id)).zip vs)
            DEFAULT_EMBEDDING_MODEL
          doc_vectorized := true
          cancellations := cancels } := by
      intro events
      rw [vectorizeDocLoop]
      rw [dif_neg (by simpa using hne)]
      simp only [List.take_of_length_le hlen, List.drop_eq_nil_of_le hlen,
        he]
      rw [vectorizeDocLoop]
      simp
    rw [vectorize_document, hw]
    rw [hloop]
    exact ⟨rfl, by simp,
      store_chunk_zip DEFAULT_EMBEDDING_MODEL env.chunks vs hnodup hvs⟩

/-- A concrete two-chunk document whose first batch gets one vector. -/
def envDoc1 : DocEnv :=
  { document_id := "d1"
    document_name := "doc.txt"
    chunks := [⟨"c1", "x", none, none⟩, ⟨"c2", "y", none, none⟩]
    warmup := Except.ok ()
    embed := fun _ _ => Except.ok [[1]] }

/-- C1 witness: both single-batch statements applied to concrete
environments with two texts and one returned vector. -/
theorem c1_zip_truncates_witness :
    ((vectorize_table envC1 (fun _ => false) []).store.map
      (fun r => (r.row_id, r.content, r.embedding)) =
      (remove_vectorization [] envC1.table_name).map
        (fun r => (r.row_id, r.content, r.embedding)) ++
        (envC1.rows.map (fun r => r.1)).zip
          ((envC1.rows.map (fun r => r.2)).zip [[1]])) ∧
    ((vectorize_document envDoc1 false []).chunk_table.map
      (fun c => c.embedding) =
      ([[1]] : List (List ℚ)).map some ++
        (envDoc1.chunks.drop 1).map (fun c => c.embedding)) :=
  ⟨(c1_zip_truncates_silently.2.1 envC1 [] [[1]] rfl (by decide)
      (by decide) rfl (by decide)).2.2,
   (c1_zip_truncates_silently.2.2 envDoc1 false [] [[1]] rfl (by decide)
      (by decide) rfl (by decide) (by decide)).2.2⟩

/-! ## C2 — mid-batch embedding failure -/

/-- `store_document_chunk_embeddings` composes over the pair lists. -/
lemma store_chunk_append (t : List StoredChunk)
    (ps qs : List (String × List ℚ)) (m : String) :
    store_document_chunk_embeddings
      (store_document_chunk_embeddings t ps m) qs m =
    store_document_chunk_embeddings t (ps ++ qs) m := by
  simp [store_document_chunk_embeddings, List.foldl_append]

/-- Appending on the right preserves being an extension of `a`. -/
lemma append_extension {A : Type} (a b c : List A) :
    ∃ d, (a ++ b) ++ c = a ++ d :=
  ⟨b ++ c, List.append_assoc a b c⟩

/-- `append_extension` with a pointwise property of the new elements. -/
lemma append_extension_forall {A : Type} (P : A → Prop) (a b c : List A)
    (hb : ∀ x ∈ b, P x) (hc : ∀ x ∈ c, P x) :
    ∃ d, (a ++ b) ++ c = a ++ d ∧ ∀ x ∈ d, P x :=
  ⟨b ++ c, List.append_assoc a b c,
    fun x hx => (List.mem_append.mp hx).elim (hb x) (hc x)⟩

/-- When the table loop ends in an error, the incoming store is a prefix
of the final one (committed batches retained) and every event appended by
the loop is a `processing` event without an error payload. -/
lemma vectorizeTableLoop_error_frame (env : TableEnv)
    (cancel : Nat → Bool) :
    ∀ (n : Nat) (pending : List (Int × String)), pending.length ≤ n →
    ∀ (callIdx : Nat) (processed : Int)
      (events : List VectorizationProgress)
      (store : List EmbeddingRecord) (e : String),
    (vectorizeTableLoop env cancel pending callIdx processed events
      store).result = Except.error e →
    (∃ extra, (vectorizeTableLoop env cancel pending callIdx processed
      events store).store = store ++ extra) ∧
    (∃ evs, (vectorizeTableLoop env cancel pending callIdx processed
      events store).events = events ++ evs ∧
      ∀ ev ∈ evs, ev.status = "processing" ∧ ev.error = none) := by
  intro n
  induction n with
  | zero =>
    intro pending hlen callIdx processed events store e hres
    have hnil : pending = [] := List.length_eq_zero.mp (Nat.le_zero.mp hlen)
    subst hnil
    rw [vectorizeTableLoop] at hres
    by_cases hc : cancel callIdx
    · rw [if_pos hc] at hres
      simp at hres
    · rw [if_neg hc] at hres
      rw [dif_pos (by simp)] at hres
      simp at hres
  | succ n ih =>
    intro pending hlen callIdx processed events store e hres
    rw [vectorizeTableLoop] at hres ⊢
    by_cases hc : cancel callIdx
    · rw [if_pos hc] at hres
      simp at hres
    · rw [if_neg hc] at hres ⊢
      by_cases hrows : (pending.take TABLE_BATCH_SIZE).isEmpty
      · rw [dif_pos hrows] at hres
        simp at hres
      · rw [dif_neg hrows] at hres ⊢
        rcases he : env.embed callIdx
            ((pending.take TABLE_BATCH_SIZE).map (fun r => r.2)) with
          e2 | embeddings
        · simp only [he] at hres ⊢
          exact ⟨⟨[], by simp⟩, [], by simp, by simp⟩
        · simp only [he] at hres ⊢
          have hne : pending ≠ [] := by
            intro hnil
            rw [hnil] at hrows
            simp at hrows
          have hlen2 : (pending.drop TABLE_BATCH_SIZE).length ≤ n := by
            have hpos : 0 < pending.length := List.length_pos.mpr hne
            simp only [List.length_drop]
            rw [TABLE_BATCH_SIZE]
            omega
          obtain ⟨⟨extra, hstore⟩, evs, hevents, hall⟩ :=
            ih (pending.drop TABLE_BATCH_SIZE) hlen2 _ _ _ _ _ hres
          constructor
          · rw [hstore, store_embeddings]
            exact append_extension _ _ _
          · rw [hevents]
            refine append_extension_forall _ _ _ _ ?_ hall
            intro x hx
            rw [List.mem_singleton] at hx
            subst hx
            exact ⟨rfl, rfl⟩

/-- When the document loop ends in an error, the chunk table holds exactly
the committed batches' updates applied to the incoming table, the
document's vectorized flag and the cancellation set are untouched, and
every event appended by the loop is a `processing` event without an error
payload. -/
lemma vectorizeDocLoop_error_frame (env : DocEnv) :
    ∀ (n : Nat) (pending : List StoredChunk), pending.length ≤ n →
    ∀ (callIdx : Nat) (processed : Int)
      (events : List DocumentVectorizationProgress)
      (table : List StoredChunk) (docVec : Bool) (cancels : List String)
      (e : String),
    (vectorizeDocLoop env pending callIdx processed events table docVec
      cancels).result = Except.error e →
    (∃ ps, (vectorizeDocLoop env pending callIdx processed events table
      docVec cancels).chunk_table =
      store_document_chunk_embeddings table ps DEFAULT_EMBEDDING_MODEL) ∧
    (vectorizeDocLoop env pending callIdx processed events table docVec
      cancels).doc_vectorized = docVec ∧
    (vectorizeDocLoop env pending callIdx processed events table docVec
      cancels).cancellations = cancels ∧
    (∃ evs, (vectorizeDocLoop env pending callIdx processed events table
      docVec cancels).events = events ++ evs ∧
      ∀ ev ∈ evs, ev.status = "processing" ∧ ev.error = none) := by
  intro n
  induction n with
  | zero =>
    intro pending hlen callIdx processed events table docVec cancels e hres
    have hnil : pending = [] := List.length_eq_zero.mp (Nat.le_zero.mp hlen)
    subst hnil
    rw [vectorizeDocLoop] at hres
    rw [dif_pos (by simp)] at hres
    simp at hres
  | succ n ih =>
    intro pending hlen callIdx processed events table docVec cancels e hres
    rw [vectorizeDocLoop] at hres ⊢
    by_cases hpending : pending.isEmpty
    · rw [dif_pos hpending] at hres
      simp at hres
    · rw [dif_neg hpending] at hres ⊢
      rcases he : env.embed callIdx
          ((pending.take DOC_BATCH_SIZE).map (fun c => c.content)) with
        e2 | embeddings
      · simp only [he] at hres ⊢
        refine ⟨⟨[], by simp [store_document_chunk_embeddings]⟩,
          by simp, by simp, [], by simp, by simp⟩
      · simp only [he] at hres ⊢
        have hne : pending ≠ [] := by
          intro hnil
          rw [hnil] at hpending
          simp at hpending
        have hlen2 : (pending.drop DOC_BATCH_SIZE).length ≤ n := by
          have hpos : 0 < pending.length := List.length_pos.mpr hne
          simp only [List.length_drop]
          rw [DOC_BATCH_SIZE]
          omega
        obtain ⟨⟨ps, htable⟩, hdoc, hcanc, evs, hevents, hall⟩ :=
          ih (pending.drop DOC_BATCH_SIZE) hlen2 _ _ _ _ _ _ _ hres
        refine ⟨?_, hdoc, hcanc, ?_⟩
        · rw [htable, store_chunk_append]
          exact ⟨_, rfl⟩
        · rw [hevents]
          refine append_extension_forall _ _ _ _ ?_ hall
          intro x hx
          rw [List.mem_singleton] at hx
          subst hx
          exact ⟨rfl, rfl⟩

/-- C2 (amended): when an embedding call fails mid-batch (warm-up having
succeeded), the command returns the underlying error to its caller and
previously committed batches remain persisted — the final store extends
the post-cleanup store in the table flow, and the chunk table is exactly
the committed updates applied to the fetched chunks in the document flow,
with the document's vectorized flag and the cancellation set untouched —
but the terminal `error` state is NOT reported through the progress
channel: every emitted event has status `loading_model` or `processing`
and carries no error payload. -/
theorem c2_midbatch_error_silent :
    (∀ (env : TableEnv) (cancel : Nat → Bool)
        (store0 : List EmbeddingRecord) (e : String),
      env.warmup = Except.ok () →
      (vectorize_table env cancel store0).result = Except.error e →
      (∃ extra, (vectorize_table env cancel store0).store =
        remove_vectorization store0 env.table_name ++ extra) ∧
      (∀ ev ∈ (vectorize_table env cancel store0).events,
        (ev.status = "loading_model" ∨ ev.status = "processing") ∧
        ev.error = none)) ∧
    (∀ (env : DocEnv) (docVec0 : Bool) (cancels : List String)
        (e : String),
      env.warmup = Except.ok () →
      (vectorize_document env docVec0 cancels).result = Except.error e →
      (∃ ps, (vectorize_document env docVec0 cancels).chunk_table =
        store_document_chunk_embeddings env.chunks ps
          DEFAULT_EMBEDDING_MODEL) ∧
      (vectorize_document env docVec0 cancels).doc_vectorized = docVec0 ∧
      (vectorize_document env docVec0 cancels).cancellations = cancels ∧
      (∀ ev ∈ (vectorize_document env docVec0 cancels).events,
        (ev.status = "loading_model" ∨ ev.status = "processing") ∧
        ev.error = none)) := by
  constructor
  · intro env cancel store0 e hw hres
    simp only [vectorize_table, hw] at hres ⊢
    obtain ⟨⟨extra, hstore⟩, evs, hevents, hall⟩ :=
      vectorizeTableLoop_error_frame env cancel env.rows.length env.rows
        le_rfl 0 0 _ _ e hres
    refine ⟨⟨extra, hstore⟩, ?_⟩
    intro ev hev
    rw [hevents] at hev
    rcases List.mem_append.mp hev with h | h
    · rcases List.mem_append.mp h with h2 | h2
      · rw [List.mem_singleton] at h2
        subst h2
        exact ⟨Or.inl rfl, rfl⟩
      · rw [List.mem_singleton] at h2
        subst h2
        exact ⟨Or.inr rfl, rfl⟩
    · exact ⟨Or.inr (hall ev h).1, (hall ev h).2⟩
  · intro env docVec0 cancels e hw hres
    simp only [vectorize_document, hw] at hres ⊢
    obtain ⟨⟨ps, htable⟩, hdoc, hcanc, evs, hevents, hall⟩ :=
      vectorizeDocLoop_error_frame env env.chunks.length env.chunks
        le_rfl 0 0 _ _ docVec0 cancels e hres
    refine ⟨⟨ps, htable⟩, hdoc, hcanc, ?_⟩
    intro ev hev
    rw [hevents] at hev
    rcases List.mem_append.mp hev with h | h
    · rcases List.mem_append.mp h with h2 | h2
      · rw [List.mem_singleton] at h2
        subst h2
        exact ⟨Or.inl rfl, rfl⟩
      · rw [List.mem_singleton] at h2
        subst h2
        exact ⟨Or.inr rfl, rfl⟩
    · exact ⟨Or.inr (hall ev h).1, (hall ev h).2⟩

/-- A one-row table whose every embedding call is refused. -/
def envC2 : TableEnv :=
  { table_name := "t2"
    columns := ["c"]
    total_rows := 1
    rows := [(0, "a")]
    warmup := Except.ok ()
    embed := fun _ _ => Except.error "connection refused" }

/-- C2 counterexample to the reporting half of the claim: on this run the
first embedding call fails, the command returns the error, yet no `error`
event is emitted — the progress channel shows only `loading_model` and the
initial `processing` event, so the terminal state is invisible to it. -/
theorem c2_error_not_reported :
    (vectorize_table envC2 (fun _ => false) []).result =
      Except.error "connection refused" ∧
    ((vectorize_table envC2 (fun _ => false) []).events.map
      (fun ev => ev.status)) = ["loading_model", "processing"] ∧
    ∀ ev ∈ (vectorize_table envC2 (fun _ => false) []).events,
      ev.status ≠ "error" := by
  refine ⟨?_, ?_, ?_⟩ <;>
    simp [vectorize_table, envC2, vectorizeTableLoop, remove_vectorization,
      TABLE_BATCH_SIZE]

/-- A one-chunk document whose every embedding call times out. -/
def envDocErr : DocEnv :=
  { document_id := "d2"
    document_name := "doc2.txt"
    chunks := [⟨"k1", "x", none, none⟩]
    warmup := Except.ok ()
    embed := fun _ _ => Except.error "timeout" }

/-- C2 witness: both halves of the mid-batch-failure theorem applied to
concrete runs whose first embedding call fails. -/
theorem c2_midbatch_error_witness :
    ((∃ extra, (vectorize_table envC2 (fun _ => false) []).store =
        remove_vectorization [] envC2.table_name ++ extra) ∧
      (∀ ev ∈ (vectorize_table envC2 (fun _ => false) []).events,
        (ev.status = "loading_model" ∨ ev.status = "processing") ∧
        ev.error = none)) ∧
    ((∃ ps, (vectorize_document envDocErr false []).chunk_table =
        store_document_chunk_embeddings envDocErr.chunks ps
          DEFAULT_EMBEDDING_MODEL) ∧
      (vectorize_document envDocErr false []).doc_vectorized = false ∧
      (vectorize_document envDocErr false []).cancellations = [] ∧
      (∀ ev ∈ (vectorize_document envDocErr false []).events,
        (ev.status = "loading_model" ∨ ev.status = "processing") ∧
        ev.error = none)) :=
  ⟨c2_midbatch_error_silent.1 envC2 (fun _ => false) [] "connection refused"
      rfl
      (by simp [vectorize_table, envC2, vectorizeTableLoop,
        TABLE_BATCH_SIZE]),
   c2_midbatch_error_silent.2 envDocErr false [] "timeout" rfl
      (by simp [vectorize_document, envDocErr, vectorizeDocLoop,
        DOC_BATCH_SIZE])⟩

/-! ## C3 — cancellation -/

/-- The table loop polls the cancellation flag at every batch boundary:
if the flag first reads true at boundary `callIdx + k` and rows remain,
the loop runs exactly `k` more batches, emits `cancelled`, returns Ok, and
keeps the incoming store as a prefix. -/
lemma vectorizeTableLoop_cancel_frame (env : TableEnv)
    (cancel : Nat → Bool) :
    ∀ (k : Nat), ∀ (callIdx : Nat) (pending : List (Int × String))
      (processed : Int) (events : List VectorizationProgress)
      (store : List EmbeddingRecord),
    (∀ i, i < k → cancel (callIdx + i) = false) →
    cancel (callIdx + k) = true →
    TABLE_BATCH_SIZE * k < pending.length →
    (∀ i ts, ∃ vs, env.embed i ts = Except.ok vs) →
    (vectorizeTableLoop env cancel pending callIdx processed events
      store).result = Except.ok () ∧
    ((vectorizeTableLoop env cancel pending callIdx processed events
      store).events.map (fun ev => ev.status)) =
      events.map (fun ev => ev.status) ++
        List.replicate k "processing" ++ ["cancelled"] ∧
    (∃ extra, (vectorizeTableLoop env cancel pending callIdx processed
      events store).store = store ++ extra) := by
  intro k
  induction k with
  | zero =>
    intro callIdx pending processed events store h0 hk hlen htotal
    rw [Nat.add_zero] at hk
    rw [vectorizeTableLoop, if_pos hk]
    exact ⟨rfl, by simp, [], by simp⟩
  | succ k ih =>
    intro callIdx pending processed events store h0 hk hlen htotal
    have hc0 : cancel callIdx = false := by
      have := h0 0 (Nat.succ_pos k)
      simpa using this
    have hpne : pending ≠ [] := by
      intro h
      rw [h] at hlen
      simp at hlen
    have hne : ¬((pending.take TABLE_BATCH_SIZE).isEmpty = true) := by
      simp only [List.isEmpty_iff, List.take_eq_nil_iff]
      intro h
      rcases h with h | h
      · rw [TABLE_BATCH_SIZE] at h
        omega
      · exact hpne h
    rw [vectorizeTableLoop, if_neg (by simp [hc0]), dif_neg hne]
    obtain ⟨vs, hvs⟩ := htotal callIdx
      ((pending.take TABLE_BATCH_SIZE).map (fun r => r.2))
    simp only [hvs]
    have h0' : ∀ i, i < k → cancel (callIdx + 1 + i) = false := by
      intro i hi
      have := h0 (i + 1) (Nat.succ_lt_succ hi)
      rwa [show callIdx + (i + 1) = callIdx + 1 + i by omega] at this
    have hk' : cancel (callIdx + 1 + k) = true := by
      rwa [show callIdx + 1 + k = callIdx + (k + 1) by omega]
    have hlen' : TABLE_BATCH_SIZE * k <
        (pending.drop TABLE_BATCH_SIZE).length := by
      simp only [List.length_drop]
      have hlen2 := hlen
      rw [TABLE_BATCH_SIZE] at hlen2 ⊢
      omega
    obtain ⟨hres, hevents, extra, hstore⟩ :=
      ih (callIdx + 1) (pending.drop TABLE_BATCH_SIZE)
        (processed + ((pending.take TABLE_BATCH_SIZE).length : Int))
        (events ++ [⟨env.table_name, env.total_rows,
          processed + ((pending.take TABLE_BATCH_SIZE).length : Int),
          "processing", none⟩])
        (store_embeddings store env.table_name
          (String.intercalate "+" env.columns)
          (zipEmbeddingRows
            ((pending.take TABLE_BATCH_SIZE).map (fun r => r.1))
            ((pending.take TABLE_BATCH_SIZE).map (fun r => r.2)) vs)
          DEFAULT_EMBEDDING_MODEL)
        h0' hk' hlen' htotal
    refine ⟨hres, ?_, ?_⟩
    · rw [hevents]
      simp [List.replicate_succ]
    · rw [hstore, store_embeddings]
      exact append_extension _ _ _

/-- The document loop never consults or clears the cancellation set and
never emits a `cancelled` event: every event of the final run is either an
incoming one or has a status other than `cancelled`. -/
lemma vectorizeDocLoop_no_cancel (env : DocEnv) :
    ∀ (n : Nat) (pending : List StoredChunk), pending.length ≤ n →
    ∀ (callIdx : Nat) (processed : Int)
      (events : List DocumentVectorizationProgress)
      (table : List StoredChunk) (docVec : Bool) (cancels : List String),
    (vectorizeDocLoop env pending callIdx processed events table docVec
      cancels).cancellations = cancels ∧
    ∀ ev ∈ (vectorizeDocLoop env pending callIdx processed events table
      docVec cancels).events, ev ∈ events ∨ ev.status ≠ "cancelled" := by
  intro n
  induction n with
  | zero =>
    intro pending hlen callIdx processed events table docVec cancels
    have hnil : pending = [] := List.length_eq_zero.mp (Nat.le_zero.mp hlen)
    subst hnil
    rw [vectorizeDocLoop, dif_pos (by simp)]
    refine ⟨rfl, ?_⟩
    intro ev hev
    rcases List.mem_append.mp hev with h | h
    · exact Or.inl h
    · rw [List.mem_singleton] at h
      subst h
      exact Or.inr (by simp)
  | succ n ih =>
    intro pending hlen callIdx processed events table docVec cancels
    by_cases hpending : pending.isEmpty
    · rw [vectorizeDocLoop, dif_pos hpending]
      refine ⟨rfl, ?_⟩
      intro ev hev
      rcases List.mem_append.mp hev with h | h
      · exact Or.inl h
      · rw [List.mem_singleton] at h
        subst h
        exact Or.inr (by simp)
    · rw [vectorizeDocLoop, dif_neg hpending]
      rcases he : env.embed callIdx
          ((pending.take DOC_BATCH_SIZE).map (fun c => c.content)) with
        e2 | embeddings
      · simp only [he]
        exact ⟨by simp, fun ev hev => Or.inl hev⟩
      · simp only [he]
        have hne : pending ≠ [] := by
          intro hnil
          rw [hnil] at hpending
          simp at hpending
        have hlen2 : (pending.drop DOC_BATCH_SIZE).length ≤ n := by
          have hpos : 0 < pending.length := List.length_pos.mpr hne
          simp only [List.length_drop]
          rw [DOC_BATCH_SIZE]
          omega
        obtain ⟨hcanc, hall⟩ := ih (pending.drop DOC_BATCH_SIZE) hlen2
          (callIdx + 1)
          (processed + ((pending.take DOC_BATCH_SIZE).length : Int))
          (events ++ [⟨env.document_id, env.document_name,
            (env.chunks.length : Int),
            processed + ((pending.take DOC_BATCH_SIZE).length : Int),
            "processing", none⟩])
          (store_document_chunk_embeddings table
            (((pending.take DOC_BATCH_SIZE).map (fun c => c.id)).zip
              embeddings) DEFAULT_EMBEDDING_MODEL)
          docVec cancels
        refine ⟨hcanc, ?_⟩
        intro ev hev
        rcases hall ev hev with h | h
        · rcases List.mem_append.mp h with h2 | h2
          · exact Or.inl h2
          · rw [List.mem_singleton] at h2
            subst h2
            exact Or.inr (by simp)
        · exact Or.inr h

/-- C3 (amended): the table flow honours cancellation — if the flag first
reads true at batch boundary `k` while rows remain and the embedding calls
succeed, the run processes exactly `k` batches, emits `cancelled` after the
`loading_model` and initial `processing` events plus one `processing` event
per completed batch, returns Ok, and keeps already-written records — but
the document flow never observes cancellation at all: it returns the
process-wide cancellation set untouched and never emits a `cancelled`
event, whatever requests that set holds. -/
theorem c3_cancellation_table_only :
    (∀ (env : TableEnv) (cancel : Nat → Bool)
        (store0 : List EmbeddingRecord) (k : Nat),
      env.warmup = Except.ok () →
      (∀ i, i < k → cancel i = false) →
      cancel k = true →
      TABLE_BATCH_SIZE * k < env.rows.length →
      (∀ i ts, ∃ vs, env.embed i ts = Except.ok vs) →
      (vectorize_table env cancel store0).result = Except.ok () ∧
      ((vectorize_table env cancel store0).events.map
        (fun ev => ev.status)) =
        ["loading_model", "processing"] ++
          List.replicate k "processing" ++ ["cancelled"] ∧
      (∃ extra, (vectorize_table env cancel store0).store =
        remove_vectorization store0 env.table_name ++ extra)) ∧
    (∀ (env : DocEnv) (docVec0 : Bool) (cancels : List String),
      (vectorize_document env docVec0 cancels).cancellations = cancels ∧
      ∀ ev ∈ (vectorize_document env docVec0 cancels).events,
        ev.status ≠ "cancelled") := by
  constructor
  · intro env cancel store0 k hw h0 hk hlen htotal
    simp only [vectorize_table, hw]
    have h0' : ∀ i, i < k → cancel (0 + i) = false := by
      intro i hi
      rw [Nat.zero_add]
      exact h0 i hi
    have hk' : cancel (0 + k) = true := by
      rw [Nat.zero_add]
      exact hk
    obtain ⟨hres, hevents, extra, hstore⟩ :=
      vectorizeTableLoop_cancel_frame env cancel k 0 env.rows 0
        ([⟨env.table_name, env.total_rows, 0, "loading_model", none⟩] ++
         [⟨env.table_name, env.total_rows, 0, "processing", none⟩])
        (remove_vectorization store0 env.table_name) h0' hk' hlen htotal
    refine ⟨hres, ?_, extra, hstore⟩
    rw [hevents]
    simp
  · intro env docVec0 cancels
    cases hw : env.warmup with
    | error e =>
      simp only [vectorize_document, hw]
      refine ⟨by simp, ?_⟩
      intro ev hev
      rcases List.mem_append.mp hev with h | h
      · rw [List.mem_singleton] at h
        subst h
        simp
      · rw [List.mem_singleton] at h
        subst h
        simp
    | ok u =>
      simp only [vectorize_document, hw]
      obtain ⟨hcanc, hall⟩ := vectorizeDocLoop_no_cancel env
        env.chunks.length env.chunks le_rfl 0 0
        ([⟨env.document_id, env.document_name, (env.chunks.length : Int),
          0, "loading_model", none⟩] ++
         [⟨env.document_id, env.document_name, (env.chunks.length : Int),
          0, "processing", none⟩])
        env.chunks docVec0 cancels
      refine ⟨hcanc, ?_⟩
      intro ev hev
      rcases hall ev hev with h | h
      · rcases List.mem_append.mp h with h2 | h2
        · rw [List.mem_singleton] at h2
          subst h2
          simp
        · rw [List.mem_singleton] at h2
          subst h2
          simp
      · exact h

/-- A one-chunk document with id `d1` whose embedding calls succeed. -/
def envDocC3 : DocEnv :=
  { document_id := "d1"
    document_name := "doc3.txt"
    chunks := [⟨"k3", "z", none, none⟩]
    warmup := Except.ok ()
    embed := fun _ _ => Except.ok [[1]] }

/-- C3 counterexample: a cancellation request for document `d1` is already
recorded, yet `vectorize_document` for `d1` runs every batch to completion,
marks the document vectorized, and returns the cancellation set with the
request still in it — no batch boundary ever observes the flag. -/
theorem c3_doc_ignores_cancellation :
    (vectorize_document envDocC3 false ["d1"]).result = Except.ok () ∧
    (vectorize_document envDocC3 false ["d1"]).cancellations = ["d1"] ∧
    (vectorize_document envDocC3 false ["d1"]).doc_vectorized = true ∧
    ((vectorize_document envDocC3 false ["d1"]).events.map
      (fun ev => ev.status)) =
      ["loading_model", "processing", "processing", "completed"] := by
  refine ⟨?_, ?_, ?_, ?_⟩ <;>
    simp [vectorize_document, envDocC3, vectorizeDocLoop, DOC_BATCH_SIZE,
      store_document_chunk_embeddings, DEFAULT_EMBEDDING_MODEL]

/-- A 51-row table whose embedding calls all succeed. -/
def envC3 : TableEnv :=
  { table_name := "t3"
    columns := ["c"]
    total_rows := 51
    rows := (List.range 51).map (fun i => ((i : Int), "t"))
    warmup := Except.ok ()
    embed := fun _ _ => Except.ok [[1]] }

/-- C3 witness: the table half applied to a 51-row table whose
cancellation flag turns on at boundary 1 — one full batch runs, then the
job cancels. -/
theorem c3_cancellation_witness :
    (vectorize_table envC3 (fun i => decide (1 ≤ i)) []).result =
      Except.ok () ∧
    ((vectorize_table envC3 (fun i => decide (1 ≤ i)) []).events.map
      (fun ev => ev.status)) =
      ["loading_model", "processing"] ++
        List.replicate 1 "processing" ++ ["cancelled"] ∧
    (∃ extra, (vectorize_table envC3 (fun i => decide (1 ≤ i)) []).store =
      remove_vectorization [] envC3.table_name ++ extra) :=
  c3_cancellation_table_only.1 envC3 (fun i => decide (1 ≤ i)) [] 1 rfl
    (by decide) (by decide) (by decide) (fun i ts => ⟨[[1]], rfl⟩)
